import Mathlib

/-!
Verification of the FFI bridge of ladspa.rs (src/ffi.rs).

The development shallowly embeds the bridge: heap allocations are modelled as
sequentially numbered cells in an association-list heap, raw host pointers as
opaque natural numbers, C strings as byte lists with an explicit terminating 0,
and the process-wide registry as an explicit state record threaded through the
exported enumeration entry point. Panics are modelled with Except.
-/

set_option maxHeartbeats 1000000

namespace LadspaRs

/-! ### Port kinds and the plugin description

The plugin-description side (the rustic PluginDescriptor, Port and the bit
constants of the embedded ladspa module) lives partly in lib.rs, which is not
part of the sources here; the shapes below follow the data model of the spec
(section 3 and section 6) and the uses visible in ffi.rs. -/

/-- Port kind bit constants of the embedded ladspa module in ffi.rs. -/
def PORT_INPUT : Nat := 0x1

/-- Port kind bit constant, see ffi.rs. -/
def PORT_OUTPUT : Nat := 0x2

/-- Port kind bit constant, see ffi.rs. -/
def PORT_CONTROL : Nat := 0x4

/-- Port kind bit constant, see ffi.rs. -/
def PORT_AUDIO : Nat := 0x8

/-- Range hint bit constant, see ffi.rs. -/
def HINT_BOUNDED_BELOW : Nat := 0x1

/-- Range hint bit constant, see ffi.rs. -/
def HINT_BOUNDED_ABOVE : Nat := 0x2

/-- The four-way port kind variant of the rustic side, plus the Invalid tag
that connect_port treats as fatal. Modelled from the spec: the enum itself is
declared in lib.rs (outside src), matched on in ffi.rs. -/
inductive PortDescriptor where
  | AudioInput
  | AudioOutput
  | ControlInput
  | ControlOutput
  | Invalid
deriving DecidableEq, Repr

/-- Modelled from the spec: the numeric tag of a port kind (the cast
"desc as i32" in ffi.rs) combines the direction and type bits of section 6 of
the spec (input 0x1, output 0x2, control 0x4, audio 0x8); Invalid carries no
documented tag and is given 0. -/
def PortDescriptor.bits : PortDescriptor → Nat
  | .AudioInput => PORT_AUDIO ||| PORT_INPUT
  | .AudioOutput => PORT_AUDIO ||| PORT_OUTPUT
  | .ControlInput => PORT_CONTROL ||| PORT_INPUT
  | .ControlOutput => PORT_CONTROL ||| PORT_OUTPUT
  | .Invalid => 0

/-- Modelled from the spec: one port declaration of a plugin description
(name, kind, optional hint bits, optional default marker, optional bounds).
Strings are byte lists; the f32 bounds are carried opaquely as integers since
only their presence and verbatim copy matter to the bridge. -/
structure Port where
  name : List Nat
  desc : PortDescriptor
  hint : Option Nat
  defaultHint : Option Nat
  lower_bound : Option Int
  upper_bound : Option Int
deriving DecidableEq, Repr

/-- Modelled from the spec: the author-supplied plugin description consumed by
ladspa_descriptor (unique identifier, strings, capability flag bits, ordered
port list). The constructor capability and plugin logic are external
collaborators and are not part of the marshalled data. -/
structure PluginDescriptor where
  unique_id : Nat
  label : List Nat
  properties : Nat
  name : List Nat
  maker : List Nat
  copyright : List Nat
  ports : List Port
deriving DecidableEq, Repr

/-! ### Heap model and marshalling -/

/-- The C-layout PortRangeHint record of ffi.rs (hint bitset and the two
bound values). -/
structure PortRangeHint where
  hint_descriptor : Nat
  lower_bound : Int
  upper_bound : Int
deriving DecidableEq, Repr

/-- The C-layout ladspa Descriptor record of ffi.rs. Pointer-valued fields
hold allocation identifiers; the callback function pointers carry no data and
are omitted. -/
structure CDescriptor where
  unique_id : Nat
  label : Nat
  properties : Nat
  name : Nat
  maker : Nat
  copyright : Nat
  port_count : Nat
  port_descriptors : Nat
  port_names : Nat
  port_range_hints : Nat
  implementation_data : Nat
deriving DecidableEq, Repr

/-- An uninitialized descriptor record, standing for the raw malloc result
before the field writes in ladspa_descriptor. -/
def CDescriptor.uninit : CDescriptor := ⟨0, 0, 0, 0, 0, 0, 0, 0, 0, 0, 0⟩

/-- Contents of one heap allocation made by the bridge. -/
inductive HVal where
  | bytes (bs : List Nat)
  | pdescs (l : List Nat)
  | pnames (l : List Nat)
  | phints (l : List PortRangeHint)
  | cdesc (c : CDescriptor)
  | impl (p : PluginDescriptor)
  | table (l : List Nat)
deriving DecidableEq, Repr

/-- The bridge-owned heap: allocation identifiers are handed out sequentially
by a counter, newest allocation at the front. -/
structure Mem where
  heap : List (Nat × HVal)
  next : Nat
deriving DecidableEq, Repr

/-- The model of malloc in ffi.rs: a fresh identifier; never fails in the
model (a null return is an environment fault, panicking in the source). -/
def Mem.alloc (m : Mem) (v : HVal) : Nat × Mem :=
  (m.next, ⟨(m.next, v) :: m.heap, m.next + 1⟩)

/-- Read the contents of an allocation. -/
def lookupHeap (h : List (Nat × HVal)) (k : Nat) : Option HVal :=
  match h with
  | [] => none
  | kv :: rest => if kv.1 = k then some kv.2 else lookupHeap rest k

/-- Write to an existing allocation in place. -/
def hwrite : List (Nat × HVal) → Nat → HVal → List (Nat × HVal)
  | [], _, _ => []
  | kv :: rest, k, v => (if kv.1 = k then (k, v) else kv) :: hwrite rest k v

/-- make_c_str of ffi.rs: allocate a buffer of the string bytes followed by
the null terminator. -/
def make_c_str (m : Mem) (s : List Nat) : Nat × Mem :=
  m.alloc (.bytes (s ++ [0]))

/-- The hint record written for one port in the marshalling loop of
ladspa_descriptor: hint bits or-ed with the default marker and the
bounded-below and bounded-above flags derived from the presence of bounds. -/
def buildHint (p : Port) : PortRangeHint :=
  { hint_descriptor := p.hint.getD 0 ||| p.defaultHint.getD 0 |||
      (if p.lower_bound.isSome then HINT_BOUNDED_BELOW else 0) |||
      (if p.upper_bound.isSome then HINT_BOUNDED_ABOVE else 0)
    lower_bound := p.lower_bound.getD 0
    upper_bound := p.upper_bound.getD 0 }

/-- The port-name marshalling loop of ladspa_descriptor: one make_c_str call
per port, in port order, returning the allocation identifiers in order. -/
def allocNames (m : Mem) : List Port → List Nat × Mem
  | [] => ([], m)
  | p :: ps =>
    let (i, m1) := make_c_str m p.name
    let (is, m2) := allocNames m1 ps
    (i :: is, m2)

/-- The Some branch of ladspa_descriptor: marshal one plugin description into
a freshly allocated ABI descriptor graph, returning the identifier of the
descriptor record. Allocation order follows the source: the record itself,
the four strings, the three per-port arrays, the per-port name strings, and
finally the retained original description (implementation_data). -/
def build_descriptor (plugin : PluginDescriptor) (m : Mem) : Nat × Mem :=
  let (d, m1) := m.alloc (.cdesc CDescriptor.uninit)
  let (lbl, m2) := make_c_str m1 plugin.label
  let (nm, m3) := make_c_str m2 plugin.name
  let (mk, m4) := make_c_str m3 plugin.maker
  let (cp, m5) := make_c_str m4 plugin.copyright
  let (pd, m6) := m5.alloc (.pdescs (plugin.ports.map (fun p => p.desc.bits)))
  let (pn, m7) := m6.alloc (.pnames [])
  let (ph, m8) := m7.alloc (.phints (plugin.ports.map buildHint))
  let (nameIds, m9) := allocNames m8 plugin.ports
  let m10 : Mem := ⟨hwrite m9.heap pn (.pnames nameIds), m9.next⟩
  let (im, m11) := m10.alloc (.impl plugin)
  let c : CDescriptor :=
    { unique_id := plugin.unique_id
      label := lbl
      properties := plugin.properties
      name := nm
      maker := mk
      copyright := cp
      port_count := plugin.ports.length
      port_descriptors := pd
      port_names := pn
      port_range_hints := ph
      implementation_data := im }
  (d, ⟨hwrite m11.heap d (.cdesc c), m11.next⟩)

/-! ### The process-wide descriptor registry -/

/-- MAX_DESCRIPTORS of ffi.rs. -/
def MAX_DESCRIPTORS : Nat := 32

/-- The process-wide mutable state of ffi.rs: the init flag, descriptor
count, the optional pointer to the descriptor table, and the heap. -/
structure RegState where
  init_done : Bool
  num_descriptors : Nat
  descriptors : Option Nat
  mem : Mem
deriving DecidableEq, Repr

/-- The pristine state of the statics before any call. -/
def initState : RegState := ⟨false, 0, none, ⟨[], 0⟩⟩

/-- The lazy initialization at the top of ladspa_descriptor: on the first
call, register the atexit finalizer (an effect outside the model) and
allocate the fixed-capacity descriptor table. Table slots are written
append-wise, so the fresh table starts empty. -/
def afterInit (st : RegState) : RegState :=
  if st.init_done then st
  else
    let (t, m) := st.mem.alloc (.table [])
    { st with init_done := true, descriptors := some t, mem := m }

/-- The slots of the descriptor table written so far. -/
def tableSlots (st : RegState) : List Nat :=
  match st.descriptors with
  | some t =>
    match lookupHeap st.mem.heap t with
    | some (.table l) => l
    | _ => []
  | none => []

/-- The exported enumeration entry point ladspa_descriptor of ffi.rs.
The external catalog capability get_ladspa_descriptor is a parameter. The
returned value models the returned pointer (none = null); a panic (the
capacity check) is Except.error. Table writes always happen at the slot equal
to the current count, which in every reachable state is the number of slots
written, so the write is modelled as an append. -/
def ladspa_descriptor (catalog : Nat → Option PluginDescriptor) (index : Nat)
    (st0 : RegState) : Except Unit (Option Nat × RegState) :=
  let st := afterInit st0
  if index < st.num_descriptors then
    .ok (some ((tableSlots st).getD index 0), st)
  else
    match catalog index with
    | some plugin =>
      let (d, m) := build_descriptor plugin st.mem
      let t := st.descriptors.getD 0
      let m1 : Mem := ⟨hwrite m.heap t (.table (tableSlots st ++ [d])), m.next⟩
      let st1 : RegState :=
        { st with num_descriptors := st.num_descriptors + 1, mem := m1 }
      if st1.num_descriptors ≥ MAX_DESCRIPTORS then .error () else .ok (some d, st1)
    | none => .ok (none, st)

/-- A sequence of host calls to the enumeration entry point; a panic in any
call aborts the run. -/
def runCalls (catalog : Nat → Option PluginDescriptor) (idxs : List Nat)
    (st : RegState) : Except Unit RegState :=
  match idxs with
  | [] => .ok st
  | i :: rest =>
    match ladspa_descriptor catalog i st with
    | .ok (_, st1) => runCalls catalog rest st1
    | .error e => .error e

/-- The returned descriptor pointer of one call (none when the call returned
null or panicked). -/
def retPtr : Except Unit (Option Nat × RegState) → Option Nat
  | .ok (p, _) => p
  | .error _ => none

/-- The state after one call (the pristine state when the call panicked). -/
def retSt : Except Unit (Option Nat × RegState) → RegState
  | .ok (_, st) => st
  | .error _ => initState

/-- True on a panicked run. -/
def isPanic : Except Unit RegState → Bool
  | .error _ => true
  | .ok _ => false

/-- The descriptor count after a non-panicked run. -/
def numAfter : Except Unit RegState → Option Nat
  | .ok st => some st.num_descriptors
  | .error _ => none

/-! ### Teardown -/

/-- free_descriptor of ffi.rs, as the ordered list of allocation identifiers
it passes to free: the four strings, the port-kind array, each port-name
string (the first port_count entries of the name array), the name array, the
hint array, the retained original description, and finally the record
itself. -/
def free_descriptor (heap : List (Nat × HVal)) (d : Nat) : List Nat :=
  match lookupHeap heap d with
  | some (.cdesc c) =>
    let names : List Nat :=
      match lookupHeap heap c.port_names with
      | some (.pnames l) => l.take c.port_count
      | _ => []
    [c.label, c.name, c.maker, c.copyright, c.port_descriptors] ++ names ++
      [c.port_names, c.port_range_hints, c.implementation_data, d]
  | _ => []

/-- global_destruct of ffi.rs, as the ordered list of allocation identifiers
freed at process exit: nothing when initialization never ran, otherwise the
graph of each of the num_descriptors table slots in order, then the table
itself. -/
def global_destruct (st : RegState) : List Nat :=
  if st.init_done then
    ((List.range st.num_descriptors).map
        (fun i => free_descriptor st.mem.heap ((tableSlots st).getD i 0))).flatten
      ++ [st.descriptors.getD 0]
  else []

/-! ### Registry well-formedness

A decidable description of the states the registry can actually reach: the
statics are initialized, the table is allocation 0 (the very first alloc) and
holds one written slot per counted descriptor, the count is below capacity,
every heap key is below the allocation counter, and the heap is a chain of
well-shaped descriptor graphs covering allocations 1 up to the counter. -/

/-- When allocation d is a well-shaped descriptor graph occupying the
identifiers from lo on (record at lo, strings at lo+1..lo+4, arrays at
lo+5..lo+7, port-name strings at lo+8.., retained original last), return the
first identifier after the graph. -/
def goodDescEnd (heap : List (Nat × HVal)) (d lo : Nat) : Option Nat :=
  match lookupHeap heap d with
  | some (.cdesc c) =>
    if d = lo ∧ c.label = lo + 1 ∧ c.name = lo + 2 ∧ c.maker = lo + 3 ∧
        c.copyright = lo + 4 ∧ c.port_descriptors = lo + 5 ∧
        c.port_names = lo + 6 ∧ c.port_range_hints = lo + 7 ∧
        c.implementation_data = lo + 8 + c.port_count ∧
        lookupHeap heap (lo + 6) = some (.pnames (List.range' (lo + 8) c.port_count))
    then some (lo + 9 + c.port_count)
    else none
  | _ => none

/-- The slot list is a chain of well-shaped descriptor graphs tiling the
allocation identifiers from lo up to hi. -/
def chainOk (heap : List (Nat × HVal)) : Nat → List Nat → Nat → Bool
  | lo, [], hi => lo = hi
  | lo, d :: rest, hi =>
    match goodDescEnd heap d lo with
    | some mid => chainOk heap mid rest hi
    | none => false

/-- True when the optional heap value is a table allocation. -/
def isTable : Option HVal → Bool
  | some (.table _) => true
  | _ => false

/-- The reachable-state invariant of the registry. -/
def WF (st : RegState) : Prop :=
  st.init_done = true ∧
  st.descriptors = some 0 ∧
  isTable (lookupHeap st.mem.heap 0) = true ∧
  (tableSlots st).length = st.num_descriptors ∧
  st.num_descriptors < MAX_DESCRIPTORS ∧
  (∀ kv ∈ st.mem.heap, kv.1 < st.mem.next) ∧
  chainOk st.mem.heap 1 (tableSlots st) st.mem.next = true

instance (st : RegState) : Decidable (WF st) := by
  unfold WF; infer_instance

/-! ### Handles, port connection and the run bridge -/

/-- The typed view stored for one connected port: audio connections keep the
host base pointer and a current view length, control connections just the
host value location. -/
inductive PortData where
  | AudioInput (base : Nat) (len : Nat)
  | AudioOutput (base : Nat) (len : Nat)
  | ControlInput (loc : Nat)
  | ControlOutput (loc : Nat)
deriving DecidableEq, Repr

/-- PortConnection: the declared port metadata plus the typed view. -/
structure PortConnection where
  port : Port
  data : PortData
deriving DecidableEq, Repr

/-- A throwaway connection used only as the default of total lookups. -/
def dummyConn : PortConnection :=
  ⟨⟨[], .Invalid, none, none, none, none⟩, .ControlInput 0⟩

/-- The per-instantiation Handle of ffi.rs. The rustic references stored in
the ordered ports field point at the entries of port_map keyed by their port
number; a reference is modelled as the key it points through. The boxed
plugin logic is an external collaborator and carries no marshalled data. -/
structure Handle where
  descriptor : PluginDescriptor
  port_map : List (Nat × PortConnection)
  ports : List Nat
deriving DecidableEq, Repr

/-- instantiate of ffi.rs: fresh handle with an empty connection map and an
empty ordered port list (construction of the plugin logic is external). -/
def instantiate (d : PluginDescriptor) : Handle := ⟨d, [], []⟩

/-- VecMap.insert on the key-ordered connection map: inserts a new key in
order, or replaces the entry of an existing key. -/
def vmInsert (k : Nat) (v : PortConnection) :
    List (Nat × PortConnection) → List (Nat × PortConnection)
  | [] => [(k, v)]
  | (a, w) :: rest =>
    if k < a then (k, v) :: (a, w) :: rest
    else if k = a then (k, v) :: rest
    else (a, w) :: vmInsert k v rest

/-- VecMap lookup by key. -/
def vmLookup (pm : List (Nat × PortConnection)) (k : Nat) : Option PortConnection :=
  match pm with
  | [] => none
  | kv :: rest => if kv.1 = k then some kv.2 else vmLookup rest k

/-- The typed connection built by connect_port from the declared kind and the
raw host pointer: audio kinds get a zero-length buffer view over the pointer,
control kinds a value reference; the Invalid kind is a fatal error (none). -/
def mkPortData : PortDescriptor → Nat → Option PortData
  | .AudioInput, loc => some (.AudioInput loc 0)
  | .AudioOutput, loc => some (.AudioOutput loc 0)
  | .ControlInput, loc => some (.ControlInput loc)
  | .ControlOutput, loc => some (.ControlOutput loc)
  | .Invalid, _ => none

/-- connect_port of ffi.rs: look up the declared port (indexing past the end
panics), build the typed connection (an Invalid kind panics), insert or
replace the map entry at the port number, and when the map now holds one
entry per declared port rebuild the ordered port list as the references to
keys 0..len. -/
def connect_port (h : Handle) (port_num : Nat) (data_location : Nat) :
    Except Unit Handle :=
  match h.descriptor.ports.get? port_num with
  | none => .error ()
  | some port =>
    match mkPortData port.desc data_location with
    | none => .error ()
    | some pdata =>
      let pm := vmInsert port_num ⟨port, pdata⟩ h.port_map
      let h1 : Handle := { h with port_map := pm }
      if pm.length = h.descriptor.ports.length then
        .ok { h1 with ports := List.range pm.length }
      else .ok h1

/-- A sequence of connect_port calls, as a host connecting several ports. -/
def connectAll (h : Handle) : List (Nat × Nat) → Except Unit Handle
  | [] => .ok h
  | (p, loc) :: rest =>
    match connect_port h p loc with
    | .ok h1 => connectAll h1 rest
    | .error e => .error e

/-- The per-run refresh in run of ffi.rs: audio views are re-derived over
their stored base pointer with the sample count of this call; control views
pass through unchanged. -/
def refreshData (n : Nat) : PortData → PortData
  | .AudioInput base _ => .AudioInput base n
  | .AudioOutput base _ => .AudioOutput base n
  | d => d

/-- Dereference the ordered port list: the connections the plugin logic sees
through the stored references. -/
def portsView (h : Handle) : List PortConnection :=
  h.ports.map (fun i => (vmLookup h.port_map i).getD dummyConn)

/-- run of ffi.rs: refresh every audio view in the map with this call's
sample count, then hand the plugin logic the sample count and the ordered
port list. The result is the updated handle together with the two arguments
passed to the plugin logic's run. -/
def run (h : Handle) (sample_count : Nat) : Handle × Nat × List PortConnection :=
  let pm := h.port_map.map (fun kv => (kv.1, ⟨kv.2.port, refreshData sample_count kv.2.data⟩))
  let h1 : Handle := { h with port_map := pm }
  (h1, sample_count, portsView h1)

/-! ### Heap lemmas -/

theorem lookupHeap_cons (kv : Nat × HVal) (rest : List (Nat × HVal)) (k : Nat) :
    lookupHeap (kv :: rest) k = if kv.1 = k then some kv.2 else lookupHeap rest k := rfl

theorem lookupHeap_append_none {h1 : List (Nat × HVal)} {k : Nat}
    (h : lookupHeap h1 k = none) (h2 : List (Nat × HVal)) :
    lookupHeap (h1 ++ h2) k = lookupHeap h2 k := by
  induction h1 with
  | nil => rfl
  | cons kv rest ih =>
    rw [lookupHeap_cons] at h
    by_cases hk : kv.1 = k
    · simp [hk] at h
    · simpa [lookupHeap_cons, hk] using ih (by simpa [hk] using h)

theorem lookupHeap_append_some {h1 : List (Nat × HVal)} {k : Nat} {v : HVal}
    (h : lookupHeap h1 k = some v) (h2 : List (Nat × HVal)) :
    lookupHeap (h1 ++ h2) k = some v := by
  induction h1 with
  | nil => simp [lookupHeap] at h
  | cons kv rest ih =>
    rw [lookupHeap_cons] at h
    by_cases hk : kv.1 = k
    · simp only [List.cons_append, lookupHeap_cons, if_pos hk]
      simpa [hk] using h
    · simp only [List.cons_append, lookupHeap_cons, if_neg hk]
      exact ih (by simpa [hk] using h)

theorem lookupHeap_eq_none {h : List (Nat × HVal)} {k : Nat}
    (hk : ∀ kv ∈ h, kv.1 ≠ k) : lookupHeap h k = none := by
  induction h with
  | nil => rfl
  | cons kv rest ih =>
    rw [lookupHeap_cons, if_neg (hk kv (List.mem_cons_self kv rest))]
    exact ih (fun kv' hkv' => hk kv' (List.mem_cons_of_mem kv hkv'))

theorem lookupHeap_some_key_lt {h : List (Nat × HVal)} {k : Nat} {v : HVal} {n : Nat}
    (hb : ∀ kv ∈ h, kv.1 < n) (hl : lookupHeap h k = some v) : k < n := by
  induction h with
  | nil => simp [lookupHeap] at hl
  | cons kv rest ih =>
    rw [lookupHeap_cons] at hl
    by_cases hk : kv.1 = k
    · exact hk ▸ hb kv (List.mem_cons_self kv rest)
    · exact ih (fun kv' hkv' => hb kv' (List.mem_cons_of_mem kv hkv'))
        (by simpa [hk] using hl)

theorem lookupHeap_hwrite_ne {q k : Nat} (hqk : q ≠ k) (h : List (Nat × HVal)) (v : HVal) :
    lookupHeap (hwrite h k v) q = lookupHeap h q := by
  induction h with
  | nil => rfl
  | cons kv rest ih =>
    by_cases hk : kv.1 = k
    · rw [hwrite, if_pos hk, lookupHeap_cons, lookupHeap_cons]
      have h1 : ¬ ((k, v).1 = q) := fun h => hqk (by simpa using h.symm)
      have h2 : ¬ (kv.1 = q) := by rw [hk]; exact fun h => hqk h.symm
      rw [if_neg h1, if_neg h2]; exact ih
    · rw [hwrite, if_neg hk, lookupHeap_cons, lookupHeap_cons]
      by_cases hq : kv.1 = q
      · simp [hq]
      · simp only [if_neg hq]; exact ih

theorem lookupHeap_hwrite_self {h : List (Nat × HVal)} {k : Nat} {w : HVal}
    (hl : lookupHeap h k = some w) (v : HVal) :
    lookupHeap (hwrite h k v) k = some v := by
  induction h with
  | nil => simp [lookupHeap] at hl
  | cons kv rest ih =>
    rw [lookupHeap_cons] at hl
    by_cases hk : kv.1 = k
    · rw [hwrite, if_pos hk, lookupHeap_cons, if_pos rfl]
    · rw [hwrite, if_neg hk, lookupHeap_cons, if_neg hk]
      exact ih (by simpa [hk] using hl)

theorem hwrite_append (h1 h2 : List (Nat × HVal)) (k : Nat) (v : HVal) :
    hwrite (h1 ++ h2) k v = hwrite h1 k v ++ hwrite h2 k v := by
  induction h1 with
  | nil => rfl
  | cons kv rest ih => rw [List.cons_append, hwrite, hwrite, ih, List.cons_append]

theorem hwrite_eq_of_ne {h : List (Nat × HVal)} {k : Nat}
    (hk : ∀ kv ∈ h, kv.1 ≠ k) (v : HVal) : hwrite h k v = h := by
  induction h with
  | nil => rfl
  | cons kv rest ih =>
    rw [hwrite, if_neg (hk kv (List.mem_cons_self kv rest))]
    rw [ih (fun kv' hkv' => hk kv' (List.mem_cons_of_mem kv hkv'))]

theorem hwrite_keys_lt {h : List (Nat × HVal)} {n k : Nat}
    (hb : ∀ kv ∈ h, kv.1 < n) (hk : k < n) (v : HVal) :
    ∀ kv ∈ hwrite h k v, kv.1 < n := by
  induction h with
  | nil => intro kv hkv; simp [hwrite] at hkv
  | cons kv0 rest ih =>
    intro kv hkv
    rw [hwrite] at hkv
    rcases List.mem_cons.mp hkv with h1 | h2
    · subst h1
      by_cases hh : kv0.1 = k
      · simpa [hh] using hk
      · simpa [hh] using hb kv0 (List.mem_cons_self kv0 rest)
    · exact ih (fun kv' hkv' => hb kv' (List.mem_cons_of_mem kv0 hkv')) kv h2

/-! ### Normal form of a built descriptor graph -/

/-- The port-name string allocations of a build, newest first, as they sit in
the heap. -/
def namesEntriesRev (s : Nat) : List Port → List (Nat × HVal)
  | [] => []
  | p :: ps => namesEntriesRev (s + 1) ps ++ [(s, .bytes (p.name ++ [0]))]

/-- The descriptor record written at the end of the Some branch of
ladspa_descriptor, with its pointer fields expressed by allocation offsets
from the record identifier. -/
def builtC (plugin : PluginDescriptor) (n0 : Nat) : CDescriptor :=
  { unique_id := plugin.unique_id
    label := n0 + 1
    properties := plugin.properties
    name := n0 + 2
    maker := n0 + 3
    copyright := n0 + 4
    port_count := plugin.ports.length
    port_descriptors := n0 + 5
    port_names := n0 + 6
    port_range_hints := n0 + 7
    implementation_data := n0 + 8 + plugin.ports.length }

/-- The heap segment a build starting at allocation n0 prepends, newest
allocation first. -/
def descGraph (plugin : PluginDescriptor) (n0 : Nat) : List (Nat × HVal) :=
  (n0 + 8 + plugin.ports.length, .impl plugin) ::
    (namesEntriesRev (n0 + 8) plugin.ports ++
      [(n0 + 7, .phints (plugin.ports.map buildHint)),
       (n0 + 6, .pnames (List.range' (n0 + 8) plugin.ports.length)),
       (n0 + 5, .pdescs (plugin.ports.map (fun p => p.desc.bits))),
       (n0 + 4, .bytes (plugin.copyright ++ [0])),
       (n0 + 3, .bytes (plugin.maker ++ [0])),
       (n0 + 2, .bytes (plugin.name ++ [0])),
       (n0 + 1, .bytes (plugin.label ++ [0])),
       (n0, .cdesc (builtC plugin n0))])

theorem namesEntriesRev_keys (s : Nat) (ps : List Port) :
    ∀ kv ∈ namesEntriesRev s ps, s ≤ kv.1 ∧ kv.1 < s + ps.length := by
  induction ps generalizing s with
  | nil => intro kv hkv; simp [namesEntriesRev] at hkv
  | cons p ps ih =>
    intro kv hkv
    rw [namesEntriesRev] at hkv
    rcases List.mem_append.mp hkv with h1 | h2
    · have := ih (s + 1) kv h1
      simp only [List.length_cons]
      omega
    · rcases List.mem_singleton.mp h2 with rfl
      simp only [List.length_cons]
      omega

theorem descGraph_keys (plugin : PluginDescriptor) (n0 : Nat) :
    ∀ kv ∈ descGraph plugin n0, n0 ≤ kv.1 ∧ kv.1 < n0 + 9 + plugin.ports.length := by
  intro kv hkv
  rw [descGraph] at hkv
  rcases List.mem_cons.mp hkv with h1 | h2
  · subst h1; simp; omega
  · rcases List.mem_append.mp h2 with h3 | h4
    · have := namesEntriesRev_keys (n0 + 8) plugin.ports kv h3
      omega
    · simp only [List.mem_cons, List.not_mem_nil, or_false] at h4
      rcases h4 with rfl | rfl | rfl | rfl | rfl | rfl | rfl | rfl | rfl
      all_goals (simp; omega)

theorem allocNames_eq (ps : List Port) (m : Mem) :
    allocNames m ps =
      (List.range' m.next ps.length,
        ⟨namesEntriesRev m.next ps ++ m.heap, m.next + ps.length⟩) := by
  induction ps generalizing m with
  | nil => simp [allocNames, namesEntriesRev]
  | cons p ps ih =>
    rw [allocNames, make_c_str, Mem.alloc]
    simp only [ih, List.length_cons, namesEntriesRev, List.range'_succ]
    simp only [Prod.mk.injEq, Mem.mk.injEq, List.append_assoc, List.singleton_append]
    exact ⟨trivial, trivial, by omega⟩

theorem lookupHeap_namesEntriesRev_lt (q s : Nat) (hq : q < s) (ps : List Port) :
    lookupHeap (namesEntriesRev s ps) q = none := by
  apply lookupHeap_eq_none
  intro kv hkv
  have := namesEntriesRev_keys s ps kv hkv
  omega

theorem lookupHeap_namesEntriesRev_at (s i : Nat) (ps : List Port) (hi : i < ps.length) :
    lookupHeap (namesEntriesRev s ps) (s + i) =
      some (.bytes ((ps.getD i ⟨[], .Invalid, none, none, none, none⟩).name ++ [0])) := by
  induction ps generalizing s i with
  | nil => simp at hi
  | cons p ps ih =>
    rw [namesEntriesRev]
    cases i with
    | zero =>
      simp only [Nat.add_zero]
      rw [lookupHeap_append_none (lookupHeap_namesEntriesRev_lt s (s + 1) (by omega) ps)]
      simp [lookupHeap]
    | succ j =>
      have hj : j < ps.length := by simpa using hi
      have hsj : s + (j + 1) = (s + 1) + j := by omega
      rw [hsj, lookupHeap_append_some (ih (s + 1) j hj)]
      simp

theorem build_descriptor_eq (plugin : PluginDescriptor) (m : Mem)
    (hb : ∀ kv ∈ m.heap, kv.1 < m.next) :
    build_descriptor plugin m =
      (m.next, ⟨descGraph plugin m.next ++ m.heap, m.next + 9 + plugin.ports.length⟩) := by
  have hnames6 : ∀ kv ∈ namesEntriesRev (m.next + 8) plugin.ports, kv.1 ≠ m.next + 6 := by
    intro kv hkv; have := namesEntriesRev_keys (m.next + 8) plugin.ports kv hkv; omega
  have hnames0 : ∀ kv ∈ namesEntriesRev (m.next + 8) plugin.ports, kv.1 ≠ m.next := by
    intro kv hkv; have := namesEntriesRev_keys (m.next + 8) plugin.ports kv hkv; omega
  have hold6 : ∀ kv ∈ m.heap, kv.1 ≠ m.next + 6 := by
    intro kv hkv; have := hb kv hkv; omega
  have hold0 : ∀ kv ∈ m.heap, kv.1 ≠ m.next := by
    intro kv hkv; have := hb kv hkv; omega
  rw [build_descriptor]
  simp only [Mem.alloc, make_c_str, allocNames_eq]
  rw [hwrite_append, hwrite_eq_of_ne hnames6]
  simp only [hwrite]
  rw [hwrite_eq_of_ne hold6, hwrite_append, hwrite_eq_of_ne hnames0]
  simp only [hwrite]
  rw [hwrite_eq_of_ne hold0]
  simp only [descGraph, builtC, Nat.add_assoc]
  norm_num
  omega

/-! ### Reading the built graph back -/

theorem lookupHeap_descGraph_lt (plugin : PluginDescriptor) (n0 q : Nat) (hq : q < n0)
    (rest : List (Nat × HVal)) :
    lookupHeap (descGraph plugin n0 ++ rest) q = lookupHeap rest q := by
  apply lookupHeap_append_none
  apply lookupHeap_eq_none
  intro kv hkv
  have := descGraph_keys plugin n0 kv hkv
  omega

theorem lookupHeap_descGraph_cdesc (plugin : PluginDescriptor) (n0 : Nat)
    (rest : List (Nat × HVal)) :
    lookupHeap (descGraph plugin n0 ++ rest) n0 = some (.cdesc (builtC plugin n0)) := by
  simp only [descGraph, List.cons_append, List.append_assoc, lookupHeap_cons]
  rw [if_neg (show ¬(n0 + 8 + plugin.ports.length = n0) from by omega)]
  rw [lookupHeap_append_none (lookupHeap_namesEntriesRev_lt n0 (n0 + 8) (by omega) plugin.ports)]
  simp only [List.cons_append, List.nil_append, lookupHeap_cons]
  norm_num

theorem lookupHeap_descGraph_str (plugin : PluginDescriptor) (n0 j : Nat)
    (hj : 1 ≤ j ∧ j ≤ 4) (rest : List (Nat × HVal)) :
    lookupHeap (descGraph plugin n0 ++ rest) (n0 + j) =
      some (.bytes ((if j = 1 then plugin.label
        else if j = 2 then plugin.name
        else if j = 3 then plugin.maker
        else plugin.copyright) ++ [0])) := by
  simp only [descGraph, List.cons_append, List.append_assoc, lookupHeap_cons]
  rw [if_neg (show ¬(n0 + 8 + plugin.ports.length = n0 + j) from by omega)]
  rw [lookupHeap_append_none
    (lookupHeap_namesEntriesRev_lt (n0 + j) (n0 + 8) (by omega) plugin.ports)]
  simp only [List.cons_append, List.nil_append, lookupHeap_cons]
  rcases hj with ⟨h1, h2⟩
  interval_cases j <;> norm_num

theorem lookupHeap_descGraph_pdescs (plugin : PluginDescriptor) (n0 : Nat)
    (rest : List (Nat × HVal)) :
    lookupHeap (descGraph plugin n0 ++ rest) (n0 + 5) =
      some (.pdescs (plugin.ports.map (fun p => p.desc.bits))) := by
  simp only [descGraph, List.cons_append, List.append_assoc, lookupHeap_cons]
  rw [if_neg (show ¬(n0 + 8 + plugin.ports.length = n0 + 5) from by omega)]
  rw [lookupHeap_append_none
    (lookupHeap_namesEntriesRev_lt (n0 + 5) (n0 + 8) (by omega) plugin.ports)]
  simp only [List.cons_append, List.nil_append, lookupHeap_cons]
  norm_num

theorem lookupHeap_descGraph_pnames (plugin : PluginDescriptor) (n0 : Nat)
    (rest : List (Nat × HVal)) :
    lookupHeap (descGraph plugin n0 ++ rest) (n0 + 6) =
      some (.pnames (List.range' (n0 + 8) plugin.ports.length)) := by
  simp only [descGraph, List.cons_append, List.append_assoc, lookupHeap_cons]
  rw [if_neg (show ¬(n0 + 8 + plugin.ports.length = n0 + 6) from by omega)]
  rw [lookupHeap_append_none
    (lookupHeap_namesEntriesRev_lt (n0 + 6) (n0 + 8) (by omega) plugin.ports)]
  simp only [List.cons_append, List.nil_append, lookupHeap_cons]
  norm_num

theorem lookupHeap_descGraph_portname (plugin : PluginDescriptor) (n0 i : Nat)
    (hi : i < plugin.ports.length) (rest : List (Nat × HVal)) :
    lookupHeap (descGraph plugin n0 ++ rest) (n0 + 8 + i) =
      some (.bytes ((plugin.ports.getD i ⟨[], .Invalid, none, none, none, none⟩).name ++ [0])) := by
  simp only [descGraph, List.cons_append, List.append_assoc, lookupHeap_cons]
  rw [if_neg (show ¬(n0 + 8 + plugin.ports.length = n0 + 8 + i) from by omega)]
  rw [lookupHeap_append_some (lookupHeap_namesEntriesRev_at (n0 + 8) i plugin.ports hi)]

/-- The freshly built graph is a well-shaped descriptor graph. -/
theorem goodDescEnd_descGraph (plugin : PluginDescriptor) (n0 : Nat)
    (rest : List (Nat × HVal)) :
    goodDescEnd (descGraph plugin n0 ++ rest) n0 n0 =
      some (n0 + 9 + plugin.ports.length) := by
  have hc := lookupHeap_descGraph_cdesc plugin n0 rest
  have hp := lookupHeap_descGraph_pnames plugin n0 rest
  simp only [goodDescEnd, hc]
  rw [if_pos]
  · simp [builtC]
  · refine ⟨trivial, rfl, rfl, rfl, rfl, rfl, rfl, rfl, rfl, ?_⟩
    simpa [builtC] using hp

/-! ### Chain lemmas -/

theorem goodDescEnd_spec {heap : List (Nat × HVal)} {d lo mid : Nat}
    (h : goodDescEnd heap d lo = some mid) :
    ∃ c, lookupHeap heap d = some (.cdesc c) ∧ d = lo ∧ c.label = lo + 1 ∧
      c.name = lo + 2 ∧ c.maker = lo + 3 ∧ c.copyright = lo + 4 ∧
      c.port_descriptors = lo + 5 ∧ c.port_names = lo + 6 ∧
      c.port_range_hints = lo + 7 ∧ c.implementation_data = lo + 8 + c.port_count ∧
      lookupHeap heap (lo + 6) = some (.pnames (List.range' (lo + 8) c.port_count)) ∧
      mid = lo + 9 + c.port_count := by
  unfold goodDescEnd at h
  split at h
  next c heq =>
    split at h
    next hcond =>
      obtain ⟨h1, h2, h3, h4, h5, h6, h7, h8, h9, h10⟩ := hcond
      exact ⟨c, heq, h1, h2, h3, h4, h5, h6, h7, h8, h9, h10, by simpa using h.symm⟩
    next => simp at h
  next => simp at h

theorem goodDescEnd_intro {heap : List (Nat × HVal)} {d lo : Nat} {c : CDescriptor}
    (hc : lookupHeap heap d = some (.cdesc c))
    (hf : d = lo ∧ c.label = lo + 1 ∧ c.name = lo + 2 ∧ c.maker = lo + 3 ∧
      c.copyright = lo + 4 ∧ c.port_descriptors = lo + 5 ∧ c.port_names = lo + 6 ∧
      c.port_range_hints = lo + 7 ∧ c.implementation_data = lo + 8 + c.port_count ∧
      lookupHeap heap (lo + 6) = some (.pnames (List.range' (lo + 8) c.port_count))) :
    goodDescEnd heap d lo = some (lo + 9 + c.port_count) := by
  unfold goodDescEnd
  rw [hc]
  simp only [if_pos hf]

theorem chainOk_le (heap : List (Nat × HVal)) :
    ∀ (slots : List Nat) (lo hi : Nat), chainOk heap lo slots hi = true → lo ≤ hi := by
  intro slots
  induction slots with
  | nil =>
    intro lo hi h
    have : lo = hi := by simpa [chainOk] using h
    omega
  | cons d rest ih =>
    intro lo hi h
    rw [chainOk] at h
    rcases hg : goodDescEnd heap d lo with _ | mid
    · rw [hg] at h; simp at h
    · rw [hg] at h
      obtain ⟨c, -, -, -, -, -, -, -, -, -, -, hmid⟩ := goodDescEnd_spec hg
      have := ih mid hi h
      omega

theorem chainOk_congr {h1 h2 : List (Nat × HVal)} :
    ∀ (slots : List Nat) (lo hi : Nat),
      chainOk h1 lo slots hi = true →
      (∀ q, lo ≤ q → q < hi → lookupHeap h2 q = lookupHeap h1 q) →
      chainOk h2 lo slots hi = true := by
  intro slots
  induction slots with
  | nil => intro lo hi h _; simpa [chainOk] using h
  | cons d rest ih =>
    intro lo hi h hq
    rw [chainOk] at h ⊢
    rcases hg : goodDescEnd h1 d lo with _ | mid
    · rw [hg] at h; simp at h
    · rw [hg] at h
      have hle : mid ≤ hi := chainOk_le h1 rest mid hi h
      obtain ⟨c, hcd, hdlo, f1, f2, f3, f4, f5, f6, f7, f8, hpn, hmid⟩ := goodDescEnd_spec hg
      have hg2 : goodDescEnd h2 d lo = some mid := by
        have e1 : lookupHeap h2 d = some (.cdesc c) := by
          rw [hq d (by omega) (by omega)]; exact hcd
        have e2 : lookupHeap h2 (lo + 6) =
            some (.pnames (List.range' (lo + 8) c.port_count)) := by
          rw [hq (lo + 6) (by omega) (by omega)]; exact hpn
        rw [goodDescEnd_intro e1 ⟨hdlo, f1, f2, f3, f4, f5, f6, f7, f8, e2⟩, hmid]
      rw [hg2]
      exact ih mid hi h (fun q hq1 hq2 => hq q (by omega) hq2)

theorem chainOk_append {heap : List (Nat × HVal)} :
    ∀ (slots : List Nat) (lo hi d hi' : Nat),
      chainOk heap lo slots hi = true → goodDescEnd heap d hi = some hi' →
      chainOk heap lo (slots ++ [d]) hi' = true := by
  intro slots
  induction slots with
  | nil =>
    intro lo hi d hi' h hg
    have hlo : lo = hi := by simpa [chainOk] using h
    subst hlo
    simp only [List.nil_append, chainOk, hg]
    simp [chainOk]
  | cons e rest ih =>
    intro lo hi d hi' h hg
    rw [chainOk] at h
    rw [List.cons_append, chainOk]
    rcases hge : goodDescEnd heap e lo with _ | mid
    · rw [hge] at h; simp at h
    · rw [hge] at h
      exact ih mid hi d hi' h hg

theorem free_descriptor_of_good {heap : List (Nat × HVal)} {d lo mid : Nat}
    (h : goodDescEnd heap d lo = some mid) :
    ∃ k, mid = lo + 9 + k ∧
      free_descriptor heap d =
        [lo + 1, lo + 2, lo + 3, lo + 4, lo + 5] ++ List.range' (lo + 8) k ++
          [lo + 6, lo + 7, lo + 8 + k, lo] := by
  obtain ⟨c, hcd, hdlo, f1, f2, f3, f4, f5, f6, f7, f8, hpn, hmid⟩ := goodDescEnd_spec h
  refine ⟨c.port_count, hmid, ?_⟩
  subst hdlo
  have htake : List.take c.port_count (List.range' (d + 8) c.port_count) =
      List.range' (d + 8) c.port_count :=
    List.take_of_length_le (by simp)
  simp only [free_descriptor, hcd, f6, hpn, htake, f1, f2, f3, f4, f5, f7, f8]

theorem frees_perm (lo k : Nat) :
    ([lo + 1, lo + 2, lo + 3, lo + 4, lo + 5] ++ List.range' (lo + 8) k ++
      [lo + 6, lo + 7, lo + 8 + k, lo]).Perm (List.range' lo (9 + k)) := by
  have h8 : List.range' lo 8 = [lo, lo + 1, lo + 2, lo + 3, lo + 4, lo + 5, lo + 6, lo + 7] := by
    simp [List.range']
  have hsplit : List.range' lo (9 + k) =
      List.range' lo 8 ++ (List.range' (lo + 8) k ++ [lo + 8 + k]) := by
    have ha := List.range'_append lo 8 (k + 1) 1
    have hb := @List.range'_concat 1 (lo + 8) k
    simp only [Nat.one_mul] at ha hb
    rw [show 9 + k = (k + 1) + 8 from by omega, ← ha, hb]
  rw [hsplit, h8]
  refine List.Perm.symm ?_
  have step1 : ([lo, lo + 1, lo + 2, lo + 3, lo + 4, lo + 5, lo + 6, lo + 7] ++
      (List.range' (lo + 8) k ++ [lo + 8 + k]) : List Nat) =
      lo :: ([lo + 1, lo + 2, lo + 3, lo + 4, lo + 5, lo + 6, lo + 7] ++
        (List.range' (lo + 8) k ++ [lo + 8 + k])) := rfl
  rw [step1]
  refine List.Perm.trans (List.perm_append_singleton lo _).symm ?_
  have step2 : ([lo + 1, lo + 2, lo + 3, lo + 4, lo + 5] ++ List.range' (lo + 8) k ++
      [lo + 6, lo + 7, lo + 8 + k, lo] : List Nat) =
      ([lo + 1, lo + 2, lo + 3, lo + 4, lo + 5] ++ List.range' (lo + 8) k ++
        [lo + 6, lo + 7, lo + 8 + k]) ++ [lo] := by
    simp [List.append_assoc]
  rw [step2]
  refine List.Perm.append_right [lo] ?_
  have step3 : ([lo + 1, lo + 2, lo + 3, lo + 4, lo + 5, lo + 6, lo + 7] ++
      (List.range' (lo + 8) k ++ [lo + 8 + k]) : List Nat) =
      [lo + 1, lo + 2, lo + 3, lo + 4, lo + 5] ++
        ([lo + 6, lo + 7] ++ (List.range' (lo + 8) k ++ [lo + 8 + k])) := rfl
  rw [step3]
  have step4 : ([lo + 1, lo + 2, lo + 3, lo + 4, lo + 5] ++ List.range' (lo + 8) k ++
      [lo + 6, lo + 7, lo + 8 + k] : List Nat) =
      [lo + 1, lo + 2, lo + 3, lo + 4, lo + 5] ++
        (List.range' (lo + 8) k ++ [lo + 6, lo + 7, lo + 8 + k]) := by
    rw [List.append_assoc]
  rw [step4]
  refine List.Perm.append_left [lo + 1, lo + 2, lo + 3, lo + 4, lo + 5] ?_
  refine List.Perm.trans (List.perm_append_comm) ?_
  rw [List.append_assoc]
  refine List.Perm.append_left (List.range' (lo + 8) k) ?_
  exact (List.perm_append_singleton (lo + 8 + k) [lo + 6, lo + 7]).symm

/-- The joined free lists of a chain cover its identifier span exactly once. -/
theorem chainOk_frees_perm {heap : List (Nat × HVal)} :
    ∀ (slots : List Nat) (lo hi : Nat), chainOk heap lo slots hi = true →
      ((slots.map (free_descriptor heap)).flatten).Perm (List.range' lo (hi - lo)) := by
  intro slots
  induction slots with
  | nil =>
    intro lo hi h
    have hlo : lo = hi := by simpa [chainOk] using h
    subst hlo
    simp
  | cons d rest ih =>
    intro lo hi h
    rw [chainOk] at h
    rcases hg : goodDescEnd heap d lo with _ | mid
    · rw [hg] at h; simp at h
    · rw [hg] at h
      have hle : mid ≤ hi := chainOk_le heap rest mid hi h
      obtain ⟨k, hmid, hfree⟩ := free_descriptor_of_good hg
      have hperm1 : (free_descriptor heap d).Perm (List.range' lo (mid - lo)) := by
        rw [hfree, show mid - lo = 9 + k from by omega]
        exact frees_perm lo k
      have hperm2 := ih mid hi h
      have happ : (List.range' lo (mid - lo) ++ List.range' mid (hi - mid)).Perm
          (List.range' lo (hi - lo)) := by
        have ha := List.range'_append lo (mid - lo) (hi - mid) 1
        simp only [Nat.one_mul] at ha
        rw [show lo + (mid - lo) = mid from by omega] at ha
        rw [show (hi - mid) + (mid - lo) = hi - lo from by omega] at ha
        rw [ha]
      have hflat : ((d :: rest).map (free_descriptor heap)).flatten =
          free_descriptor heap d ++ (rest.map (free_descriptor heap)).flatten := by simp
      rw [hflat]
      exact (List.Perm.append hperm1 hperm2).trans happ

/-! ### Branch lemmas for the enumeration entry point -/

theorem afterInit_done {st : RegState} (h : st.init_done = true) : afterInit st = st := by
  rw [afterInit, if_pos h]

theorem WF_table {st : RegState} (hwf : WF st) :
    lookupHeap st.mem.heap 0 = some (.table (tableSlots st)) := by
  obtain ⟨h1, h2, h3, -, -, -, -⟩ := hwf
  rw [tableSlots, h2]
  rcases hl : lookupHeap st.mem.heap 0 with _ | v
  · rw [hl] at h3; simp [isTable] at h3
  · rw [hl] at h3
    cases v <;> simp [isTable] at h3 <;> simp [hl]

theorem WF_next_pos {st : RegState} (hwf : WF st) : 0 < st.mem.next :=
  lookupHeap_some_key_lt hwf.2.2.2.2.2.1 (WF_table hwf)

theorem ladspa_cached {cat : Nat → Option PluginDescriptor} {index : Nat} {st : RegState}
    (h1 : st.init_done = true) (h2 : index < st.num_descriptors) :
    ladspa_descriptor cat index st = .ok (some ((tableSlots st).getD index 0), st) := by
  rw [ladspa_descriptor, afterInit_done h1]
  simp only [if_pos h2]

theorem ladspa_nocat {cat : Nat → Option PluginDescriptor} {index : Nat} {st : RegState}
    (h2 : ¬ index < st.num_descriptors) (h3 : cat index = none) :
    ladspa_descriptor cat index st = .ok (none, afterInit st) := by
  have hnum : (afterInit st).num_descriptors = st.num_descriptors := by
    rw [afterInit]; split <;> rfl
  rw [ladspa_descriptor]
  rw [if_neg (by rw [hnum]; exact h2), h3]

/-- Normal form of the state after the Some branch of ladspa_descriptor on a
well-formed state: one fresh graph prepended, the new record appended to the
table, the count bumped. -/
def builtState (plugin : PluginDescriptor) (st : RegState) : RegState :=
  { st with
    num_descriptors := st.num_descriptors + 1
    mem := ⟨descGraph plugin st.mem.next ++
        hwrite st.mem.heap 0 (.table (tableSlots st ++ [st.mem.next])),
      st.mem.next + 9 + plugin.ports.length⟩ }

theorem ladspa_build_core {cat : Nat → Option PluginDescriptor} {index : Nat}
    {st : RegState} {plugin : PluginDescriptor} (hwf : WF st)
    (hidx : ¬ index < st.num_descriptors) (hcat : cat index = some plugin) :
    ladspa_descriptor cat index st =
      if st.num_descriptors + 1 ≥ MAX_DESCRIPTORS then .error ()
      else .ok (some st.mem.next, builtState plugin st) := by
  have h1 : st.init_done = true := hwf.1
  have h2 : st.descriptors = some 0 := hwf.2.1
  have h6 : ∀ kv ∈ st.mem.heap, kv.1 < st.mem.next := hwf.2.2.2.2.2.1
  have hpos := WF_next_pos hwf
  have hsplit : hwrite (descGraph plugin st.mem.next ++ st.mem.heap) 0
        (.table (tableSlots st ++ [st.mem.next])) =
      descGraph plugin st.mem.next ++
        hwrite st.mem.heap 0 (.table (tableSlots st ++ [st.mem.next])) := by
    rw [hwrite_append]
    congr 1
    apply hwrite_eq_of_ne
    intro kv hkv
    have := descGraph_keys plugin st.mem.next kv hkv
    omega
  rw [ladspa_descriptor, afterInit_done h1]
  rw [if_neg hidx, hcat]
  simp only [build_descriptor_eq plugin st.mem h6, h2, Option.getD_some, hsplit]
  simp only [builtState, h2]

theorem ladspa_build_ok {cat : Nat → Option PluginDescriptor} {index : Nat}
    {st : RegState} {plugin : PluginDescriptor} (hwf : WF st)
    (hidx : ¬ index < st.num_descriptors) (hcat : cat index = some plugin)
    (hcap : st.num_descriptors + 1 < MAX_DESCRIPTORS) :
    ladspa_descriptor cat index st = .ok (some st.mem.next, builtState plugin st) := by
  rw [ladspa_build_core hwf hidx hcat, if_neg (by omega)]

theorem ladspa_build_panic {cat : Nat → Option PluginDescriptor} {index : Nat}
    {st : RegState} {plugin : PluginDescriptor} (hwf : WF st)
    (hidx : ¬ index < st.num_descriptors) (hcat : cat index = some plugin)
    (hcap : st.num_descriptors + 1 ≥ MAX_DESCRIPTORS) :
    ladspa_descriptor cat index st = .error () := by
  rw [ladspa_build_core hwf hidx hcat, if_pos hcap]

/-! ### Facts about the built state -/

theorem builtState_lookup_lt {plugin : PluginDescriptor} {st : RegState} (hwf : WF st)
    {q : Nat} (hq : 0 < q) (hq2 : q < st.mem.next) :
    lookupHeap (builtState plugin st).mem.heap q = lookupHeap st.mem.heap q := by
  rw [builtState]
  simp only
  rw [lookupHeap_descGraph_lt plugin st.mem.next q hq2]
  exact lookupHeap_hwrite_ne (by omega) st.mem.heap _

theorem builtState_slots {plugin : PluginDescriptor} {st : RegState} (hwf : WF st) :
    tableSlots (builtState plugin st) = tableSlots st ++ [st.mem.next] := by
  have h2 : st.descriptors = some 0 := hwf.2.1
  have hpos := WF_next_pos hwf
  rw [tableSlots, builtState]
  simp only [h2]
  rw [lookupHeap_descGraph_lt plugin st.mem.next 0 hpos]
  rw [lookupHeap_hwrite_self (WF_table hwf) _]

theorem WF_builtState {plugin : PluginDescriptor} {st : RegState} (hwf : WF st)
    (hcap : st.num_descriptors + 1 < MAX_DESCRIPTORS) : WF (builtState plugin st) := by
  obtain ⟨h1, h2, h3, h4, h5, h6, h7⟩ := hwf
  have hpos := WF_next_pos ⟨h1, h2, h3, h4, h5, h6, h7⟩
  have hslots := @builtState_slots plugin st ⟨h1, h2, h3, h4, h5, h6, h7⟩
  have htbl : lookupHeap (builtState plugin st).mem.heap 0 =
      some (.table (tableSlots st ++ [st.mem.next])) := by
    rw [builtState]
    simp only
    rw [lookupHeap_descGraph_lt plugin st.mem.next 0 hpos]
    exact lookupHeap_hwrite_self (WF_table ⟨h1, h2, h3, h4, h5, h6, h7⟩) _
  refine ⟨h1, h2, ?_, ?_, ?_, ?_, ?_⟩
  · rw [htbl]; rfl
  · rw [hslots]
    simp [builtState, h4]
  · exact hcap
  · rw [builtState]
    simp only
    intro kv hkv
    rcases List.mem_append.mp hkv with hg | hw
    · have := descGraph_keys plugin st.mem.next kv hg
      omega
    · have := hwrite_keys_lt h6 hpos (.table (tableSlots st ++ [st.mem.next])) kv hw
      omega
  · rw [hslots]
    have hcongr : chainOk (builtState plugin st).mem.heap 1 (tableSlots st) st.mem.next
        = true := by
      apply chainOk_congr (tableSlots st) 1 st.mem.next h7
      intro q hq1 hq2
      exact builtState_lookup_lt ⟨h1, h2, h3, h4, h5, h6, h7⟩ (by omega) hq2
    have hgood : goodDescEnd (builtState plugin st).mem.heap st.mem.next st.mem.next =
        some (st.mem.next + 9 + plugin.ports.length) := by
      rw [builtState]
      simp only
      exact goodDescEnd_descGraph plugin st.mem.next _
    have := chainOk_append (tableSlots st) 1 st.mem.next st.mem.next
      (st.mem.next + 9 + plugin.ports.length) hcongr hgood
    simpa [builtState] using this

theorem WF_step {cat : Nat → Option PluginDescriptor} {index : Nat} {st : RegState}
    {r : Option Nat} {st1 : RegState} (hwf : WF st)
    (h : ladspa_descriptor cat index st = .ok (r, st1)) : WF st1 := by
  by_cases hidx : index < st.num_descriptors
  · rw [ladspa_cached hwf.1 hidx] at h
    cases h
    exact hwf
  · rcases hcat : cat index with _ | plugin
    · rw [ladspa_nocat hidx hcat, afterInit_done hwf.1] at h
      cases h
      exact hwf
    · by_cases hcap : st.num_descriptors + 1 < MAX_DESCRIPTORS
      · rw [ladspa_build_ok hwf hidx hcat hcap] at h
        cases h
        exact WF_builtState hwf hcap
      · rw [ladspa_build_panic hwf hidx hcat (by omega)] at h
        cases h

/-! ### Slot stability -/

theorem getD_concat_self (l : List Nat) (x : Nat) : (l ++ [x]).getD l.length 0 = x := by
  induction l with
  | nil => rfl
  | cons a l ih => simpa using ih

theorem getD_append_left {l : List Nat} {i : Nat} (hi : i < l.length) (l' : List Nat) :
    (l ++ l').getD i 0 = l.getD i 0 := by
  induction l generalizing i with
  | nil => simp at hi
  | cons a l ih =>
    cases i with
    | zero => rfl
    | succ j =>
      have hj : j < l.length := by simpa using hi
      simpa using ih hj

theorem slot_after_ok {cat : Nat → Option PluginDescriptor} {i : Nat} {st : RegState}
    {p : Nat} {st1 : RegState} (hwf : WF st)
    (h : ladspa_descriptor cat i st = .ok (some p, st1))
    (hi : i < st1.num_descriptors) : (tableSlots st1).getD i 0 = p := by
  by_cases hidx : i < st.num_descriptors
  · rw [ladspa_cached hwf.1 hidx] at h
    cases h
    rfl
  · rcases hcat : cat i with _ | plugin
    · rw [ladspa_nocat hidx hcat] at h
      cases h
    · by_cases hcap : st.num_descriptors + 1 < MAX_DESCRIPTORS
      · rw [ladspa_build_ok hwf hidx hcat hcap] at h
        obtain ⟨hp, hst⟩ : some p = some st.mem.next ∧ st1 = builtState plugin st := by
          cases h; exact ⟨rfl, rfl⟩
        obtain rfl : p = st.mem.next := by simpa using hp
        subst hst
        have hieq : i = st.num_descriptors := by
          have : i < st.num_descriptors + 1 := hi
          omega
        rw [builtState_slots hwf, hieq, ← hwf.2.2.2.1]
        exact getD_concat_self _ _
      · rw [ladspa_build_panic hwf hidx hcat (by omega)] at h
        cases h

theorem slot_preserved {cat : Nat → Option PluginDescriptor} {j i : Nat} {st : RegState}
    {p : Nat} {r : Option Nat} {st1 : RegState} (hwf : WF st)
    (hi : i < st.num_descriptors) (hp : (tableSlots st).getD i 0 = p)
    (h : ladspa_descriptor cat j st = .ok (r, st1)) :
    i < st1.num_descriptors ∧ (tableSlots st1).getD i 0 = p := by
  by_cases hidx : j < st.num_descriptors
  · rw [ladspa_cached hwf.1 hidx] at h
    cases h
    exact ⟨hi, hp⟩
  · rcases hcat : cat j with _ | plugin
    · rw [ladspa_nocat hidx hcat, afterInit_done hwf.1] at h
      cases h
      exact ⟨hi, hp⟩
    · by_cases hcap : st.num_descriptors + 1 < MAX_DESCRIPTORS
      · rw [ladspa_build_ok hwf hidx hcat hcap] at h
        obtain rfl : st1 = builtState plugin st := by cases h; rfl
        constructor
        · show i < st.num_descriptors + 1
          omega
        · rw [builtState_slots hwf, getD_append_left (by rw [hwf.2.2.2.1]; exact hi)]
          exact hp
      · rw [ladspa_build_panic hwf hidx hcat (by omega)] at h
        cases h

theorem runCalls_slot {cat : Nat → Option PluginDescriptor} :
    ∀ (idxs : List Nat) {i : Nat} {st : RegState} {p : Nat} {st2 : RegState},
      WF st → i < st.num_descriptors → (tableSlots st).getD i 0 = p →
      runCalls cat idxs st = .ok st2 →
      WF st2 ∧ i < st2.num_descriptors ∧ (tableSlots st2).getD i 0 = p := by
  intro idxs
  induction idxs with
  | nil =>
    intro i st p st2 hwf hi hp h
    obtain rfl : st = st2 := by
      rw [runCalls] at h
      cases h
      rfl
    exact ⟨hwf, hi, hp⟩
  | cons j rest ih =>
    intro i st p st2 hwf hi hp h
    rw [runCalls] at h
    rcases hc : ladspa_descriptor cat j st with e | pr
    · rw [hc] at h; cases h
    · rw [hc] at h
      obtain ⟨r, st1⟩ := pr
      obtain ⟨hi1, hp1⟩ := slot_preserved hwf hi hp hc
      exact ih (WF_step hwf hc) hi1 hp1 h

/-! ### Connection map lemmas -/

/-- The keys of the connection map. -/
def keysOf (pm : List (Nat × PortConnection)) : List Nat := pm.map Prod.fst

/-- Ordered insertion on the key list, mirroring vmInsert. -/
def sInsert (k : Nat) : List Nat → List Nat
  | [] => [k]
  | a :: l => if k < a then k :: a :: l else if k = a then a :: l else a :: sInsert k l

theorem vmLookup_vmInsert_self (k : Nat) (v : PortConnection)
    (pm : List (Nat × PortConnection)) : vmLookup (vmInsert k v pm) k = some v := by
  induction pm with
  | nil => simp [vmInsert, vmLookup]
  | cons kv rest ih =>
    obtain ⟨a, w⟩ := kv
    rw [vmInsert]
    by_cases h1 : k < a
    · rw [if_pos h1]; simp [vmLookup]
    · rw [if_neg h1]
      by_cases h2 : k = a
      · rw [if_pos h2]; simp [vmLookup]
      · rw [if_neg h2]
        have hak : ¬ (a = k) := fun h => h2 h.symm
        simp only [vmLookup, hak, if_false, ite_false, if_neg hak]
        exact ih

theorem vmLookup_vmInsert_ne {q k : Nat} (hqk : q ≠ k) (v : PortConnection)
    (pm : List (Nat × PortConnection)) :
    vmLookup (vmInsert k v pm) q = vmLookup pm q := by
  have hkq : ¬ (k = q) := fun h => hqk h.symm
  induction pm with
  | nil => simp [vmInsert, vmLookup, hkq]
  | cons kv rest ih =>
    obtain ⟨a, w⟩ := kv
    rw [vmInsert]
    by_cases h1 : k < a
    · rw [if_pos h1]
      simp [vmLookup, hkq]
    · rw [if_neg h1]
      by_cases h2 : k = a
      · rw [if_pos h2]
        have haq : ¬ (a = q) := by omega
        simp [vmLookup, hkq, haq]
      · rw [if_neg h2]
        simp only [vmLookup]
        split_ifs
        · rfl
        · exact ih

theorem keysOf_vmInsert (k : Nat) (v : PortConnection)
    (pm : List (Nat × PortConnection)) :
    keysOf (vmInsert k v pm) = sInsert k (keysOf pm) := by
  induction pm with
  | nil => rfl
  | cons kv rest ih =>
    obtain ⟨a, w⟩ := kv
    rw [vmInsert]
    by_cases h1 : k < a
    · rw [if_pos h1]; simp [keysOf, sInsert, if_pos h1]
    · rw [if_neg h1]
      by_cases h2 : k = a
      · rw [if_pos h2]; simp [keysOf, sInsert, if_neg h1, if_pos h2, h2]
      · rw [if_neg h2]
        simp [keysOf, sInsert, if_neg h1, if_neg h2] at ih ⊢
        exact ih

theorem mem_sInsert (a k : Nat) : ∀ (l : List Nat), a ∈ sInsert k l ↔ a = k ∨ a ∈ l := by
  intro l
  induction l with
  | nil => simp [sInsert]
  | cons b l ih =>
    rw [sInsert]
    by_cases h1 : k < b
    · rw [if_pos h1]; simp
    · rw [if_neg h1]
      by_cases h2 : k = b
      · rw [if_pos h2]; subst h2; simp
      · rw [if_neg h2]
        simp only [List.mem_cons, ih]
        tauto

theorem length_sInsert_notmem {k : Nat} : ∀ {l : List Nat}, k ∉ l →
    (sInsert k l).length = l.length + 1 := by
  intro l
  induction l with
  | nil => intro _; rfl
  | cons b l ih =>
    intro hk
    rw [sInsert]
    by_cases h1 : k < b
    · rw [if_pos h1]; rfl
    · rw [if_neg h1]
      have hkb : ¬ (k = b) := fun h => hk (by rw [h]; exact List.mem_cons_self b l)
      rw [if_neg hkb]
      have hnk : k ∉ l := fun h => hk (List.mem_cons_of_mem b h)
      simp [ih hnk]

theorem sInsert_of_mem_sorted {k : Nat} : ∀ {l : List Nat},
    l.Pairwise (· < ·) → k ∈ l → sInsert k l = l := by
  intro l
  induction l with
  | nil => intro _ h; simp at h
  | cons b l ih =>
    intro hs hk
    rw [sInsert]
    rcases List.mem_cons.mp hk with rfl | hmem
    · rw [if_neg (by omega), if_pos rfl]
    · have hbk : b < k := (List.pairwise_cons.mp hs).1 k hmem
      rw [if_neg (by omega), if_neg (by omega)]
      rw [ih (List.pairwise_cons.mp hs).2 hmem]

theorem length_keysOf (pm : List (Nat × PortConnection)) : (keysOf pm).length = pm.length := by
  simp [keysOf]

theorem mkPortData_valid {desc : PortDescriptor} (h : desc ≠ .Invalid) (loc : Nat) :
    ∃ pd, mkPortData desc loc = some pd := by
  cases desc <;> simp [mkPortData] at h ⊢

/-! ### The connect protocol -/

theorem connect_port_ok {h : Handle} {p loc : Nat} {port : Port} {pd : PortData}
    (hp : h.descriptor.ports.get? p = some port)
    (hd : mkPortData port.desc loc = some pd) :
    connect_port h p loc = .ok
      (if (vmInsert p ⟨port, pd⟩ h.port_map).length = h.descriptor.ports.length then
        ⟨h.descriptor, vmInsert p ⟨port, pd⟩ h.port_map,
          List.range (vmInsert p ⟨port, pd⟩ h.port_map).length⟩
      else ⟨h.descriptor, vmInsert p ⟨port, pd⟩ h.port_map, h.ports⟩) := by
  simp only [connect_port, hp, hd]
  split_ifs <;> rfl

theorem connect_port_ok_inv {h : Handle} {p loc : Nat} {h2 : Handle}
    (hc : connect_port h p loc = .ok h2) :
    ∃ port pd, h.descriptor.ports.get? p = some port ∧
      mkPortData port.desc loc = some pd ∧
      h2.descriptor = h.descriptor ∧
      h2.port_map = vmInsert p ⟨port, pd⟩ h.port_map ∧
      h2.ports = (if (vmInsert p ⟨port, pd⟩ h.port_map).length =
          h.descriptor.ports.length then
        List.range (vmInsert p ⟨port, pd⟩ h.port_map).length else h.ports) := by
  rcases hp : h.descriptor.ports.get? p with _ | port
  · simp only [connect_port, hp] at hc
    exact Except.noConfusion hc
  · rcases hd : mkPortData port.desc loc with _ | pd
    · simp only [connect_port, hp, hd] at hc
      exact Except.noConfusion hc
    · simp only [connect_port, hp, hd] at hc
      refine ⟨port, pd, rfl, hd, ?_⟩
      by_cases hlen : (vmInsert p ⟨port, pd⟩ h.port_map).length = h.descriptor.ports.length
      · rw [if_pos hlen] at hc
        obtain rfl : h2 = ⟨h.descriptor, vmInsert p ⟨port, pd⟩ h.port_map,
            List.range (vmInsert p ⟨port, pd⟩ h.port_map).length⟩ :=
          (Except.ok.inj hc).symm
        exact ⟨rfl, rfl, by rw [if_pos hlen]⟩
      · rw [if_neg hlen] at hc
        obtain rfl : h2 = ⟨h.descriptor, vmInsert p ⟨port, pd⟩ h.port_map, h.ports⟩ :=
          (Except.ok.inj hc).symm
        exact ⟨rfl, rfl, by rw [if_neg hlen]⟩

/-- The full specification of a sequence of connect calls on distinct,
declared, valid ports none of which is already connected. -/
theorem connectAll_spec :
    ∀ (conns : List (Nat × Nat)) (h : Handle),
      (conns.map Prod.fst).Nodup →
      (∀ pl ∈ conns, ∃ port, h.descriptor.ports.get? pl.1 = some port ∧
        port.desc ≠ .Invalid) →
      (∀ pl ∈ conns, pl.1 ∉ keysOf h.port_map) →
      ∃ h2, connectAll h conns = .ok h2 ∧
        h2.descriptor = h.descriptor ∧
        h2.port_map.length = h.port_map.length + conns.length ∧
        (∀ q, q ∉ conns.map Prod.fst → vmLookup h2.port_map q = vmLookup h.port_map q) ∧
        (∀ pl ∈ conns, ∀ port, h.descriptor.ports.get? pl.1 = some port →
          vmLookup h2.port_map pl.1 =
            (mkPortData port.desc pl.2).map (fun pd => (⟨port, pd⟩ : PortConnection))) ∧
        ((conns ≠ [] ∧ h2.port_map.length = h.descriptor.ports.length) →
          h2.ports = List.range h.descriptor.ports.length) ∧
        (conns = [] → h2 = h) := by
  intro conns
  induction conns with
  | nil =>
    intro h _ _ _
    exact ⟨h, rfl, rfl, by simp, fun q _ => rfl, by simp, by simp, fun _ => rfl⟩
  | cons pl rest ih =>
    intro h hnodup hvalid hdisj
    obtain ⟨p, loc⟩ := pl
    obtain ⟨port, hp, hpv⟩ := hvalid (p, loc) (List.mem_cons_self _ _)
    obtain ⟨pd, hd⟩ := mkPortData_valid hpv loc
    have hpk : p ∉ keysOf h.port_map := hdisj (p, loc) (List.mem_cons_self _ _)
    have hnodup' : (rest.map Prod.fst).Nodup := (List.nodup_cons.mp hnodup).2
    have hpnotrest : p ∉ rest.map Prod.fst := by
      have := (List.nodup_cons.mp hnodup).1
      simpa using this
    -- the handle after the first connect
    set pm1 := vmInsert p ⟨port, pd⟩ h.port_map with hpm1
    have hlen1 : pm1.length = h.port_map.length + 1 := by
      rw [hpm1, ← length_keysOf, keysOf_vmInsert, length_sInsert_notmem hpk, length_keysOf]
    have hkeys1 : ∀ a, a ∈ keysOf pm1 ↔ a = p ∨ a ∈ keysOf h.port_map := by
      intro a
      rw [hpm1, keysOf_vmInsert]
      exact mem_sInsert a p (keysOf h.port_map)
    set h1 : Handle :=
      (if pm1.length = h.descriptor.ports.length then
        ⟨h.descriptor, pm1, List.range pm1.length⟩
      else ⟨h.descriptor, pm1, h.ports⟩) with hh1
    have hc1 : connect_port h p loc = .ok h1 := connect_port_ok hp hd
    have h1desc : h1.descriptor = h.descriptor := by
      rw [hh1]; split <;> rfl
    have h1pm : h1.port_map = pm1 := by
      rw [hh1]; split <;> rfl
    obtain ⟨h2, hcrest, hdesc2, hlen2, hnm2, hmem2, hfull2, hnil2⟩ :=
      ih h1 hnodup'
        (fun pl2 hpl2 => by
          obtain ⟨port2, hp2, hv2⟩ := hvalid pl2 (List.mem_cons_of_mem _ hpl2)
          exact ⟨port2, by rw [h1desc]; exact hp2, hv2⟩)
        (fun pl2 hpl2 => by
          rw [h1pm]
          intro hmem
          rcases (hkeys1 pl2.1).mp hmem with heq | hold
          · exact hpnotrest (heq ▸ List.mem_map_of_mem Prod.fst hpl2)
          · exact hdisj pl2 (List.mem_cons_of_mem _ hpl2) hold)
    refine ⟨h2, ?_, ?_, ?_, ?_, ?_, ?_, ?_⟩
    · rw [connectAll, hc1]
      exact hcrest
    · rw [hdesc2, h1desc]
    · rw [hlen2, h1pm, hlen1]
      simp
      omega
    · intro q hq
      have hq1 : q ∉ rest.map Prod.fst := fun hmem => hq (List.mem_cons_of_mem _ hmem)
      have hq2 : q ≠ p := by
        intro heq
        exact hq (by rw [heq]; simp)
      rw [hnm2 q hq1, h1pm, hpm1, vmLookup_vmInsert_ne hq2]
    · intro pl2 hpl2 port2 hp2
      rcases List.mem_cons.mp hpl2 with heq | hmem
      · obtain rfl : pl2 = (p, loc) := heq
        have hport2 : port2 = port := by
          rw [hp] at hp2
          exact Option.some.inj hp2.symm
        subst hport2
        rw [hnm2 p hpnotrest, h1pm, hpm1, vmLookup_vmInsert_self, hd]
        rfl
      · exact hmem2 pl2 hmem port2 (by rw [h1desc]; exact hp2)
    · rintro ⟨-, hlen⟩
      by_cases hrest : rest = []
      · subst hrest
        have hh2 : h2 = h1 := hnil2 rfl
        subst hh2
        rw [h1pm] at hlen
        rw [hh1]
        split_ifs with hx
        rw [hlen]
      · have hres := hfull2 ⟨hrest, by rw [h1desc]; exact hlen⟩
        rw [h1desc] at hres
        exact hres
    · intro habs
      cases habs

/-! ### Run bridge lemmas -/

theorem vmLookup_map (f : PortConnection → PortConnection)
    (pm : List (Nat × PortConnection)) (q : Nat) :
    vmLookup (pm.map (fun kv => (kv.1, f kv.2))) q = (vmLookup pm q).map f := by
  induction pm with
  | nil => rfl
  | cons kv rest ih =>
    rw [List.map_cons, vmLookup, vmLookup]
    simp only
    by_cases hq : kv.1 = q
    · rw [if_pos hq, if_pos hq]
      rfl
    · rw [if_neg hq, if_neg hq]
      exact ih

theorem refreshData_comp (n1 n2 : Nat) (d : PortData) :
    refreshData n2 (refreshData n1 d) = refreshData n2 d := by
  cases d <;> rfl

theorem run_port_map (h : Handle) (n : Nat) :
    (run h n).1.port_map =
      h.port_map.map (fun kv => (kv.1, ⟨kv.2.port, refreshData n kv.2.data⟩)) := rfl

theorem run_ports (h : Handle) (n : Nat) : (run h n).1.ports = h.ports := rfl

theorem run_count (h : Handle) (n : Nat) : (run h n).2.1 = n := rfl

theorem run_view (h : Handle) (n : Nat) : (run h n).2.2 = portsView (run h n).1 := rfl

theorem portsView_get? {h : Handle} {n i : Nat} (hp : h.ports = List.range n)
    (hi : i < n) :
    (portsView h).get? i = some ((vmLookup h.port_map i).getD dummyConn) := by
  rw [portsView, hp, List.get?_map, List.get?_range hi]
  rfl

theorem portsView_length (h : Handle) : (portsView h).length = h.ports.length := by
  simp [portsView]

/-- A fully connected handle built by connecting each declared port once, in
any order: descriptor preserved, ordered port list rebuilt, and each port
holding the typed connection of its connect call. -/
theorem connectAll_full {d : PluginDescriptor} {conns : List (Nat × Nat)} {h0 : Handle}
    (hvalid : ∀ port ∈ d.ports, port.desc ≠ .Invalid)
    (hperm : (conns.map Prod.fst).Perm (List.range d.ports.length))
    (hconn : connectAll (instantiate d) conns = .ok h0) :
    h0.descriptor = d ∧ h0.ports = List.range d.ports.length ∧
      h0.port_map.length = d.ports.length ∧
      (∀ pl ∈ conns, ∀ port, d.ports.get? pl.1 = some port →
        vmLookup h0.port_map pl.1 =
          (mkPortData port.desc pl.2).map (fun pd => (⟨port, pd⟩ : PortConnection))) := by
  have hnodup : (conns.map Prod.fst).Nodup :=
    hperm.nodup_iff.mpr (List.nodup_range _)
  have hvalid2 : ∀ pl ∈ conns, ∃ port,
      (instantiate d).descriptor.ports.get? pl.1 = some port ∧ port.desc ≠ .Invalid := by
    intro pl hpl
    have hmem : pl.1 ∈ List.range d.ports.length :=
      hperm.mem_iff.mp (List.mem_map_of_mem Prod.fst hpl)
    have hlt : pl.1 < d.ports.length := List.mem_range.mp hmem
    refine ⟨d.ports.get ⟨pl.1, hlt⟩, List.get?_eq_get hlt, ?_⟩
    exact hvalid _ (List.get_mem _ _ _)
  have hdisj : ∀ pl ∈ conns, pl.1 ∉ keysOf (instantiate d).port_map := by
    intro pl _ hmem
    simp [instantiate, keysOf] at hmem
  obtain ⟨h2, hc2, hdesc, hlen, hnm, hmem, hfull, hnil⟩ :=
    connectAll_spec conns (instantiate d) hnodup hvalid2 hdisj
  obtain rfl : h0 = h2 := Except.ok.inj (hconn.symm.trans hc2)
  have hlenn : h0.port_map.length = d.ports.length := by
    rw [hlen]
    have hle := hperm.length_eq
    simp only [List.length_map, List.length_range] at hle
    simp [instantiate, hle]
  refine ⟨hdesc, ?_, hlenn, fun pl hpl port hp => hmem pl hpl port hp⟩
  rcases hc : conns with _ | ⟨pl, rest⟩
  · have h0d : h0 = instantiate d := hnil hc
    have hn0 : d.ports.length = 0 := by
      subst hc
      have := hperm.length_eq
      simpa using this.symm
    rw [h0d, hn0]
    rfl
  · subst hc
    exact hfull ⟨by simp, by rw [hlenn]; rfl⟩

theorem connectAll_exists {d : PluginDescriptor} {conns : List (Nat × Nat)}
    (hvalid : ∀ port ∈ d.ports, port.desc ≠ .Invalid)
    (hperm : (conns.map Prod.fst).Perm (List.range d.ports.length)) :
    ∃ h2, connectAll (instantiate d) conns = .ok h2 := by
  have hnodup : (conns.map Prod.fst).Nodup :=
    hperm.nodup_iff.mpr (List.nodup_range _)
  have hvalid2 : ∀ pl ∈ conns, ∃ port,
      (instantiate d).descriptor.ports.get? pl.1 = some port ∧ port.desc ≠ .Invalid := by
    intro pl hpl
    have hmem : pl.1 ∈ List.range d.ports.length :=
      hperm.mem_iff.mp (List.mem_map_of_mem Prod.fst hpl)
    have hlt : pl.1 < d.ports.length := List.mem_range.mp hmem
    refine ⟨d.ports.get ⟨pl.1, hlt⟩, List.get?_eq_get hlt, ?_⟩
    exact hvalid _ (List.get_mem _ _ _)
  have hdisj : ∀ pl ∈ conns, pl.1 ∉ keysOf (instantiate d).port_map := by
    intro pl _ hmem
    simp [instantiate, keysOf] at hmem
  obtain ⟨h2, hc2, -⟩ := connectAll_spec conns (instantiate d) hnodup hvalid2 hdisj
  exact ⟨h2, hc2⟩

theorem connectAll_full_at {d : PluginDescriptor} {conns : List (Nat × Nat)} {h0 : Handle}
    (hvalid : ∀ port ∈ d.ports, port.desc ≠ .Invalid)
    (hperm : (conns.map Prod.fst).Perm (List.range d.ports.length))
    (hconn : connectAll (instantiate d) conns = .ok h0)
    {i : Nat} (hi : i < d.ports.length) :
    ∃ c, vmLookup h0.port_map i = some c ∧ (portsView h0).get? i = some c := by
  obtain ⟨hdesc, hports, hlen, hlook⟩ := connectAll_full hvalid hperm hconn
  have hmemi : i ∈ conns.map Prod.fst := hperm.mem_iff.mpr (List.mem_range.mpr hi)
  obtain ⟨pl, hpl, rfl⟩ := List.mem_map.mp hmemi
  have hp : d.ports.get? pl.1 = some (d.ports.get ⟨pl.1, hi⟩) := List.get?_eq_get hi
  have hlk := hlook pl hpl _ hp
  obtain ⟨pd, hpd⟩ := mkPortData_valid (hvalid _ (List.get_mem _ _ _)) pl.2
  refine ⟨⟨d.ports.get ⟨pl.1, hi⟩, pd⟩, ?_, ?_⟩
  · rw [hlk, hpd]
    rfl
  · rw [portsView_get? hports hi, hlk, hpd]
    rfl

/-! ### Claims about the port-connection table and the run bridge -/

/-- C5: a connect_port call on a declared port stores, for the audio kinds, a
zero-length buffer view wrapping the supplied raw pointer (length unknown
until the first processing call), and for the control kinds a single
numeric-value reference wrapping it. -/
theorem c5_connect_typed_views {h : Handle} {p loc : Nat} {port : Port} {h2 : Handle}
    (hp : h.descriptor.ports.get? p = some port)
    (hc : connect_port h p loc = .ok h2) :
    (port.desc = .AudioInput → vmLookup h2.port_map p = some ⟨port, .AudioInput loc 0⟩) ∧
    (port.desc = .AudioOutput → vmLookup h2.port_map p = some ⟨port, .AudioOutput loc 0⟩) ∧
    (port.desc = .ControlInput → vmLookup h2.port_map p = some ⟨port, .ControlInput loc⟩) ∧
    (port.desc = .ControlOutput → vmLookup h2.port_map p = some ⟨port, .ControlOutput loc⟩) := by
  obtain ⟨port', pd, hp', hd, -, hpm, -⟩ := connect_port_ok_inv hc
  obtain rfl : port' = port := Option.some.inj (hp'.symm.trans hp)
  refine ⟨?_, ?_, ?_, ?_⟩ <;> intro hdk <;>
    (rw [hpm, vmLookup_vmInsert_self]
     rw [hdk] at hd
     have hinj := Option.some.inj hd
     rw [← hinj])

/-- C4: reconnecting an already connected port replaces only that port's
entry in the connection table; every other port's stored connection is
unchanged. -/
theorem c4_connect_frame {h : Handle} {p loc : Nat} {c0 : PortConnection} {h2 : Handle}
    (hprev : vmLookup h.port_map p = some c0)
    (hc : connect_port h p loc = .ok h2) :
    (∃ port pd, h.descriptor.ports.get? p = some port ∧
      mkPortData port.desc loc = some pd ∧
      vmLookup h2.port_map p = some ⟨port, pd⟩) ∧
    (∀ q, q ≠ p → vmLookup h2.port_map q = vmLookup h.port_map q) := by
  obtain ⟨port, pd, hp, hd, -, hpm, -⟩ := connect_port_ok_inv hc
  refine ⟨⟨port, pd, hp, hd, ?_⟩, ?_⟩
  · rw [hpm]
    exact vmLookup_vmInsert_self p ⟨port, pd⟩ h.port_map
  · intro q hq
    rw [hpm]
    exact vmLookup_vmInsert_ne hq ⟨port, pd⟩ h.port_map

/-- C3: connecting all declared ports in any order yields an ordered port
list of length port-count whose entry i dereferences to the connection stored
for port i; and on a handle whose map already holds one entry per declared
port, every further connect call rebuilds the ordered list again. -/
theorem c3_ordered_port_list {d : PluginDescriptor} {conns : List (Nat × Nat)}
    (hvalid : ∀ port ∈ d.ports, port.desc ≠ .Invalid)
    (hperm : (conns.map Prod.fst).Perm (List.range d.ports.length)) :
    (∃ h2, connectAll (instantiate d) conns = .ok h2 ∧
      h2.ports = List.range d.ports.length ∧
      h2.ports.length = d.ports.length ∧
      (∀ i, i < d.ports.length →
        ∃ c, vmLookup h2.port_map i = some c ∧ (portsView h2).get? i = some c)) ∧
    (∀ (h h2 : Handle) (p loc : Nat), h.descriptor = d →
      keysOf h.port_map = List.range d.ports.length →
      connect_port h p loc = .ok h2 → h2.ports = List.range d.ports.length) := by
  constructor
  · obtain ⟨h2, hc2⟩ := connectAll_exists hvalid hperm
    obtain ⟨hdesc, hports, hlen, -⟩ := connectAll_full hvalid hperm hc2
    exact ⟨h2, hc2, hports, by rw [hports]; simp,
      fun i hi => connectAll_full_at hvalid hperm hc2 hi⟩
  · intro h h2 p loc hhd hkeys hc
    obtain ⟨port, pd, hp, hd, -, hpm, hports⟩ := connect_port_ok_inv hc
    have hplt : p < d.ports.length := by
      rw [hhd] at hp
      obtain ⟨hlt, -⟩ := List.get?_eq_some.mp hp
      exact hlt
    have hkeys2 : keysOf (vmInsert p ⟨port, pd⟩ h.port_map) =
        List.range d.ports.length := by
      rw [keysOf_vmInsert, hkeys]
      exact sInsert_of_mem_sorted (List.pairwise_lt_range _) (List.mem_range.mpr hplt)
    have hlen2 : (vmInsert p ⟨port, pd⟩ h.port_map).length = d.ports.length := by
      rw [← length_keysOf, hkeys2]
      simp
    rw [hports, if_pos (by rw [hlen2, hhd]), hlen2]

/-- C2: on a fully connected handle, each processing call re-derives every
audio connection as a view of exactly that call's sample count based at the
connect-time address, passes control connections through unchanged, and hands
the plugin logic that sample count with the ordered port list; two successive
calls with different sample counts each see their own count. -/
theorem c2_run_rederives_views {d : PluginDescriptor} {conns : List (Nat × Nat)}
    {h0 : Handle} {n1 n2 : Nat}
    (hvalid : ∀ port ∈ d.ports, port.desc ≠ .Invalid)
    (hperm : (conns.map Prod.fst).Perm (List.range d.ports.length))
    (hconn : connectAll (instantiate d) conns = .ok h0) :
    (run h0 n1).2.1 = n1 ∧
    (run (run h0 n1).1 n2).2.1 = n2 ∧
    (run h0 n1).2.2.length = d.ports.length ∧
    (run (run h0 n1).1 n2).2.2.length = d.ports.length ∧
    (∀ pl ∈ conns, ∀ port, d.ports.get? pl.1 = some port →
      (port.desc = .AudioInput →
        (run h0 n1).2.2.get? pl.1 = some ⟨port, .AudioInput pl.2 n1⟩ ∧
        (run (run h0 n1).1 n2).2.2.get? pl.1 = some ⟨port, .AudioInput pl.2 n2⟩) ∧
      (port.desc = .AudioOutput →
        (run h0 n1).2.2.get? pl.1 = some ⟨port, .AudioOutput pl.2 n1⟩ ∧
        (run (run h0 n1).1 n2).2.2.get? pl.1 = some ⟨port, .AudioOutput pl.2 n2⟩) ∧
      (port.desc = .ControlInput →
        (run h0 n1).2.2.get? pl.1 = some ⟨port, .ControlInput pl.2⟩ ∧
        (run (run h0 n1).1 n2).2.2.get? pl.1 = some ⟨port, .ControlInput pl.2⟩) ∧
      (port.desc = .ControlOutput →
        (run h0 n1).2.2.get? pl.1 = some ⟨port, .ControlOutput pl.2⟩ ∧
        (run (run h0 n1).1 n2).2.2.get? pl.1 = some ⟨port, .ControlOutput pl.2⟩)) := by
  obtain ⟨hdesc, hports, hlen, hlook⟩ := connectAll_full hvalid hperm hconn
  have hports1 : (run h0 n1).1.ports = List.range d.ports.length := by
    rw [run_ports, hports]
  have hports2 : (run (run h0 n1).1 n2).1.ports = List.range d.ports.length := by
    rw [run_ports, hports1]
  have hview1 : ∀ q, vmLookup (run h0 n1).1.port_map q =
      (vmLookup h0.port_map q).map (fun c => ⟨c.port, refreshData n1 c.data⟩) := by
    intro q
    rw [run_port_map]
    exact vmLookup_map (fun c => (⟨c.port, refreshData n1 c.data⟩ : PortConnection))
      h0.port_map q
  have hview2 : ∀ q, vmLookup (run (run h0 n1).1 n2).1.port_map q =
      (vmLookup h0.port_map q).map (fun c => ⟨c.port, refreshData n2 c.data⟩) := by
    intro q
    rw [run_port_map]
    refine (vmLookup_map (fun c => (⟨c.port, refreshData n2 c.data⟩ : PortConnection))
      (run h0 n1).1.port_map q).trans ?_
    rw [hview1 q]
    rcases vmLookup h0.port_map q with _ | c
    · rfl
    · simp [refreshData_comp]
  have hlen1 : (run h0 n1).2.2.length = d.ports.length := by
    rw [run_view, portsView_length, run_ports, hports]
    simp
  have hlen2v : (run (run h0 n1).1 n2).2.2.length = d.ports.length := by
    rw [run_view, portsView_length, run_ports, run_ports, hports]
    simp
  refine ⟨rfl, rfl, hlen1, hlen2v, ?_⟩
  intro pl hpl port hp
  have hplt : pl.1 < d.ports.length := by
    obtain ⟨hlt, -⟩ := List.get?_eq_some.mp hp
    exact hlt
  have hlk := hlook pl hpl port hp
  have hv1 : (run h0 n1).2.2.get? pl.1 =
      some (((vmLookup h0.port_map pl.1).map
        (fun c => (⟨c.port, refreshData n1 c.data⟩ : PortConnection))).getD dummyConn) := by
    rw [run_view, portsView_get? hports1 hplt, hview1]
  have hv2 : (run (run h0 n1).1 n2).2.2.get? pl.1 =
      some (((vmLookup h0.port_map pl.1).map
        (fun c => (⟨c.port, refreshData n2 c.data⟩ : PortConnection))).getD dummyConn) := by
    rw [run_view, portsView_get? hports2 hplt, hview2]
  refine ⟨?_, ?_, ?_, ?_⟩ <;> intro hdk <;>
    (constructor
     · rw [hv1, hlk, hdk]
       rfl
     · rw [hv2, hlk, hdk]
       rfl)

/-! ### Concrete fixtures -/

/-- A total catalog: a descriptor with no ports for every index. -/
def catConst : Nat → Option PluginDescriptor :=
  fun _ => some ⟨7, [65], 3, [66], [67], [68], []⟩

/-- A total catalog whose descriptor for index i carries unique id i. -/
def catUid : Nat → Option PluginDescriptor :=
  fun i => some ⟨i, [65], 3, [66], [67], [68], []⟩

/-- A catalog that is exhausted from the start. -/
def catNone : Nat → Option PluginDescriptor := fun _ => none

/-- The unique identifier stored in the descriptor record at an allocation. -/
def uidAt (st : RegState) (dp : Nat) : Option Nat :=
  match lookupHeap st.mem.heap dp with
  | some (.cdesc c) => some c.unique_id
  | _ => none

/-- Extract the state of a non-panicked run. -/
def stOf : Except Unit RegState → RegState
  | .ok st => st
  | .error _ => initState

/-- Extract the handle of a successful handle operation. -/
def hOf : Except Unit Handle → Handle
  | .ok h => h
  | .error _ => instantiate ⟨0, [], 0, [], [], [], []⟩

/-! ### Claims about the descriptor registry -/

/-- C8: for an index not yet built whose catalog entry is exhausted, the
entry point returns null; the descriptor count is unchanged, no table entry
is appended, and on an already initialized registry the state is returned
entirely untouched. This is the normal end of enumeration. -/
theorem c8_exhausted_null {cat : Nat → Option PluginDescriptor} {index : Nat}
    {st : RegState} (hidx : index ≥ st.num_descriptors) (hcat : cat index = none) :
    ladspa_descriptor cat index st = .ok (none, afterInit st) ∧
    (afterInit st).num_descriptors = st.num_descriptors ∧
    (st.init_done = true → ladspa_descriptor cat index st = .ok (none, st)) ∧
    ((st.init_done = true ∨ st = initState) →
      tableSlots (afterInit st) = tableSlots st) := by
  have hnum : (afterInit st).num_descriptors = st.num_descriptors := by
    rw [afterInit]; split <;> rfl
  have hmain : ladspa_descriptor cat index st = .ok (none, afterInit st) :=
    ladspa_nocat (by omega) hcat
  refine ⟨hmain, hnum, ?_, ?_⟩
  · intro hdone
    rw [hmain, afterInit_done hdone]
  · rintro (hdone | rfl)
    · rw [afterInit_done hdone]
    · decide

/-- C1 fails as stated: on a fresh registry with a total catalog, the first
call with index 1 returns the non-null descriptor pointer 1 and the very
next call with the same index 1 returns the different non-null pointer 10:
the cache is keyed by build order, not by the requested index, so a non-null
return does not by itself make later calls hit the cache. -/
theorem c1_counterexample :
    retPtr (ladspa_descriptor catConst 1 initState) = some 1 ∧
    retPtr (ladspa_descriptor catConst 1
      (retSt (ladspa_descriptor catConst 1 initState))) = some 10 ∧
    (1 : Nat) ≠ 10 := by
  refine ⟨by decide, by decide, by decide⟩

/-- C1 amended: once a call with index i has returned a non-null descriptor
pointer and i lies below the built count after that call (always the case
when the host probes indices sequentially 0,1,2,...), every later call with
index i, after any further sequence of calls, returns the pointer-identical
cached descriptor and leaves the registry state untouched. -/
theorem c1_cached_pointer_stable {cat : Nat → Option PluginDescriptor} {i : Nat}
    {st : RegState} {p : Nat} {st1 : RegState} {idxs : List Nat} {st2 : RegState}
    (hwf : WF st) (h1 : ladspa_descriptor cat i st = .ok (some p, st1))
    (hi : i < st1.num_descriptors)
    (hrun : runCalls cat idxs st1 = .ok st2) :
    ladspa_descriptor cat i st2 = .ok (some p, st2) := by
  have hwf1 : WF st1 := WF_step hwf h1
  have hslot1 : (tableSlots st1).getD i 0 = p := slot_after_ok hwf h1 hi
  obtain ⟨hwf2, hi2, hslot2⟩ := runCalls_slot idxs hwf1 hi hslot1 hrun
  rw [ladspa_cached hwf2.1 hi2, hslot2]

/-- C7 corrected by this counterexample: with a catalog that never reports
exhaustion, the first 31 registrations succeed, and the 32nd registration
aborts even though 32 entries do not exceed the fixed capacity of 32 slots:
the panic fires when the count reaches the capacity, not only beyond it. -/
theorem c7_counterexample :
    numAfter (runCalls catConst (List.range 31) initState) = some 31 ∧
    isPanic (runCalls catConst (List.range 32) initState) = true ∧
    (32 : Nat) ≤ MAX_DESCRIPTORS := by
  refine ⟨by decide, by decide, by decide⟩

/-- C7 amended: a registration that brings the count to at most 31 never
aborts and appends exactly one table entry; the registration that brings the
count to 32 (reaching the fixed capacity) aborts; and a catalog stub that
never reports exhaustion deterministically reaches the abort, concretely
panicking on the 32nd sequential probe after 31 successful ones. -/
theorem c7_capacity_abort {cat : Nat → Option PluginDescriptor} {index : Nat}
    {st : RegState} {plugin : PluginDescriptor} (hwf : WF st)
    (hidx : index ≥ st.num_descriptors) (hcat : cat index = some plugin) :
    (st.num_descriptors + 1 < 32 →
      ∃ dp st1, ladspa_descriptor cat index st = .ok (some dp, st1) ∧
        st1.num_descriptors = st.num_descriptors + 1 ∧
        tableSlots st1 = tableSlots st ++ [dp]) ∧
    (st.num_descriptors + 1 ≥ 32 → ladspa_descriptor cat index st = .error ()) ∧
    numAfter (runCalls catConst (List.range 31) initState) = some 31 ∧
    isPanic (runCalls catConst (List.range 32) initState) = true := by
  refine ⟨?_, ?_, by decide, by decide⟩
  · intro hcap
    refine ⟨st.mem.next, builtState plugin st,
      ladspa_build_ok hwf (by omega) hcat hcap, rfl, builtState_slots hwf⟩
  · intro hcap
    exact ladspa_build_panic hwf (by omega) hcat hcap

/-- C10: when the catalog yields a descriptor for a not-yet-built index, the
new descriptor is appended at the table slot equal to the old count, not
stored at the requested index; hence out-of-order probing misaligns slots and
catalog indices — concretely, probing index 5 first on a fresh registry and
then index 0 returns for index 0 the pointer-identical descriptor that was
built from catalog index 5 (its stored unique id is 5, not 0). -/
theorem c10_slot_vs_index {cat : Nat → Option PluginDescriptor} {index : Nat}
    {st : RegState} {plugin : PluginDescriptor} (hwf : WF st)
    (hidx : index ≥ st.num_descriptors) (hcat : cat index = some plugin)
    (hcap : st.num_descriptors + 1 < MAX_DESCRIPTORS) :
    (∃ st1, ladspa_descriptor cat index st = .ok (some st.mem.next, st1) ∧
      tableSlots st1 = tableSlots st ++ [st.mem.next] ∧
      st1.num_descriptors = st.num_descriptors + 1 ∧
      (tableSlots st1).getD st.num_descriptors 0 = st.mem.next) ∧
    (retPtr (ladspa_descriptor catUid 5 initState) = some 1 ∧
      retPtr (ladspa_descriptor catUid 0
        (retSt (ladspa_descriptor catUid 5 initState))) = some 1 ∧
      uidAt (retSt (ladspa_descriptor catUid 5 initState)) 1 = some 5) := by
  constructor
  · refine ⟨builtState plugin st, ladspa_build_ok hwf (by omega) hcat hcap,
      builtState_slots hwf, rfl, ?_⟩
    rw [builtState_slots hwf, ← hwf.2.2.2.1]
    exact getD_concat_self _ _
  · refine ⟨by decide, by decide, by decide⟩

theorem range'_getD {s k i : Nat} (hi : i < k) : (List.range' s k).getD i 0 = s + i := by
  rw [List.getD_eq_getElem _ _ (by simpa using hi)]
  simpa using List.getElem_range' i (by simpa using hi)

/-- C6: the ABI descriptor built by ladspa_descriptor reproduces the plugin
description exactly: unique identifier, capability-flag bits, port count, the
four strings readable back as null-terminated byte copies, each per-port kind
bitset equal to the declared kind, and each port name readable back as a
null-terminated byte copy of the declared name. -/
theorem c6_descriptor_roundtrip {cat : Nat → Option PluginDescriptor} {index : Nat}
    {st : RegState} {plugin : PluginDescriptor} (hwf : WF st)
    (hidx : index ≥ st.num_descriptors) (hcat : cat index = some plugin)
    (hcap : st.num_descriptors + 1 < MAX_DESCRIPTORS) :
    ∃ dp st1, ladspa_descriptor cat index st = .ok (some dp, st1) ∧
      ∃ c, lookupHeap st1.mem.heap dp = some (.cdesc c) ∧
        c.unique_id = plugin.unique_id ∧
        c.properties = plugin.properties ∧
        c.port_count = plugin.ports.length ∧
        lookupHeap st1.mem.heap c.label = some (.bytes (plugin.label ++ [0])) ∧
        lookupHeap st1.mem.heap c.name = some (.bytes (plugin.name ++ [0])) ∧
        lookupHeap st1.mem.heap c.maker = some (.bytes (plugin.maker ++ [0])) ∧
        lookupHeap st1.mem.heap c.copyright = some (.bytes (plugin.copyright ++ [0])) ∧
        lookupHeap st1.mem.heap c.port_descriptors =
          some (.pdescs (plugin.ports.map (fun p => p.desc.bits))) ∧
        ∃ nameIds, lookupHeap st1.mem.heap c.port_names = some (.pnames nameIds) ∧
          nameIds.length = plugin.ports.length ∧
          ∀ i, i < plugin.ports.length →
            lookupHeap st1.mem.heap (nameIds.getD i 0) =
              some (.bytes ((plugin.ports.getD i
                ⟨[], .Invalid, none, none, none, none⟩).name ++ [0])) := by
  refine ⟨st.mem.next, builtState plugin st,
    ladspa_build_ok hwf (by omega) hcat hcap, builtC plugin st.mem.next,
    ?_, rfl, rfl, rfl, ?_, ?_, ?_, ?_, ?_, ?_⟩
  · exact lookupHeap_descGraph_cdesc plugin st.mem.next _
  · have := lookupHeap_descGraph_str plugin st.mem.next 1 ⟨by omega, by omega⟩
      (hwrite st.mem.heap 0 (.table (tableSlots st ++ [st.mem.next])))
    simpa using this
  · have := lookupHeap_descGraph_str plugin st.mem.next 2 ⟨by omega, by omega⟩
      (hwrite st.mem.heap 0 (.table (tableSlots st ++ [st.mem.next])))
    simpa using this
  · have := lookupHeap_descGraph_str plugin st.mem.next 3 ⟨by omega, by omega⟩
      (hwrite st.mem.heap 0 (.table (tableSlots st ++ [st.mem.next])))
    simpa using this
  · have := lookupHeap_descGraph_str plugin st.mem.next 4 ⟨by omega, by omega⟩
      (hwrite st.mem.heap 0 (.table (tableSlots st ++ [st.mem.next])))
    simpa using this
  · exact lookupHeap_descGraph_pdescs plugin st.mem.next _
  · refine ⟨List.range' (st.mem.next + 8) plugin.ports.length,
      lookupHeap_descGraph_pnames plugin st.mem.next _, by simp, ?_⟩
    intro i hi
    rw [range'_getD hi]
    exact lookupHeap_descGraph_portname plugin st.mem.next i hi _

/-! ### Teardown claims -/

theorem chainOk_mem_good {heap : List (Nat × HVal)} :
    ∀ (slots : List Nat) (lo hi dp : Nat), chainOk heap lo slots hi = true →
      dp ∈ slots → ∃ lo2 mid, goodDescEnd heap dp lo2 = some mid := by
  intro slots
  induction slots with
  | nil => intro lo hi dp _ hdp; simp at hdp
  | cons e rest ih =>
    intro lo hi dp h hdp
    rw [chainOk] at h
    rcases hg : goodDescEnd heap e lo with _ | mid
    · rw [hg] at h; simp at h
    · rw [hg] at h
      rcases List.mem_cons.mp hdp with rfl | hmem
      · exact ⟨lo, mid, hg⟩
      · exact ih mid hi dp h hmem

theorem free_descriptor_shape {heap : List (Nat × HVal)} {dp lo mid : Nat}
    (h : goodDescEnd heap dp lo = some mid) :
    ∃ c nameIds, lookupHeap heap dp = some (.cdesc c) ∧
      lookupHeap heap c.port_names = some (.pnames nameIds) ∧
      free_descriptor heap dp =
        [c.label, c.name, c.maker, c.copyright, c.port_descriptors] ++ nameIds ++
          [c.port_names, c.port_range_hints, c.implementation_data, dp] := by
  obtain ⟨c, hcd, hdlo, f1, f2, f3, f4, f5, f6, f7, f8, hpn, hmid⟩ := goodDescEnd_spec h
  subst hdlo
  refine ⟨c, List.range' (dp + 8) c.port_count, hcd, by rw [f6]; exact hpn, ?_⟩
  have htake : List.take c.port_count (List.range' (dp + 8) c.port_count) =
      List.range' (dp + 8) c.port_count :=
    List.take_of_length_le (by simp)
  simp only [free_descriptor, hcd, f6, hpn, htake]

theorem range_map_getD (l : List Nat) (f : Nat → List Nat) :
    (List.range l.length).map (fun i => f (l.getD i 0)) = l.map f := by
  apply List.ext_getElem (by simp)
  intro n h1 h2
  simp only [List.getElem_map, List.getElem_range]
  rw [List.getD_eq_getElem l 0 (by simpa using h2)]

/-- C9 amended: the process-exit finalizer frees every allocation ever made
exactly once and none twice (its free list is a permutation of all handed-out
identifiers, hence duplicate-free); within each built descriptor's graph the
four strings, the port-kind array, every port-name string and the two other
per-port arrays are freed before the descriptor record, the retained original
description immediately before the record, and the record itself last. -/
theorem c9_teardown_exact {st : RegState} (hwf : WF st) :
    (global_destruct st).Perm (List.range st.mem.next) ∧
    (global_destruct st).Nodup ∧
    (∀ dp ∈ tableSlots st, ∃ c nameIds,
      lookupHeap st.mem.heap dp = some (.cdesc c) ∧
      lookupHeap st.mem.heap c.port_names = some (.pnames nameIds) ∧
      free_descriptor st.mem.heap dp =
        [c.label, c.name, c.maker, c.copyright, c.port_descriptors] ++ nameIds ++
          [c.port_names, c.port_range_hints, c.implementation_data, dp]) := by
  obtain ⟨h1, h2, h3, h4, h5, h6, h7⟩ := hwf
  have hpos : 0 < st.mem.next := WF_next_pos ⟨h1, h2, h3, h4, h5, h6, h7⟩
  have hmap : (List.range st.num_descriptors).map
      (fun i => free_descriptor st.mem.heap ((tableSlots st).getD i 0)) =
      (tableSlots st).map (free_descriptor st.mem.heap) := by
    rw [← h4]
    exact range_map_getD (tableSlots st) (free_descriptor st.mem.heap)
  have hjoin : ((tableSlots st).map (free_descriptor st.mem.heap)).flatten.Perm
      (List.range' 1 (st.mem.next - 1)) := by
    simpa using chainOk_frees_perm (tableSlots st) 1 st.mem.next h7
  have hglobal : global_destruct st =
      ((tableSlots st).map (free_descriptor st.mem.heap)).flatten ++ [0] := by
    rw [global_destruct, if_pos h1, hmap, h2]
    rfl
  have hperm : (global_destruct st).Perm (List.range st.mem.next) := by
    rw [hglobal]
    have hr : List.range st.mem.next = 0 :: List.range' 1 (st.mem.next - 1) := by
      rw [List.range_eq_range',
        show st.mem.next = (st.mem.next - 1) + 1 from by omega, List.range'_succ]
      norm_num
    rw [hr]
    exact (List.perm_append_singleton 0 _).trans (hjoin.cons 0)
  refine ⟨hperm, hperm.nodup_iff.mpr (List.nodup_range _), ?_⟩
  intro dp hdp
  obtain ⟨lo2, mid, hg⟩ := chainOk_mem_good (tableSlots st) 1 st.mem.next dp h7 hdp
  exact free_descriptor_shape hg

/-- A one-port plugin description and the registry state after registering
it once from a fresh process. -/
def plugOne : PluginDescriptor :=
  ⟨5, [76], 0, [78], [77], [79], [⟨[73], .AudioInput, none, none, none, none⟩]⟩

/-- A catalog holding only the one-port plugin. -/
def catOne : Nat → Option PluginDescriptor := fun _ => some plugOne

/-- The registry state after one registration from a fresh process. -/
def st9ex : RegState := retSt (ladspa_descriptor catOne 0 initState)

/-- C9 fails as stated on the free order: for the concrete one-descriptor
registry, the finalizer's per-descriptor free list ends with the descriptor
record (allocation 1), while the retained original description (allocation
10, the implementation_data field) is freed before it — the claim says the
retained original is freed last. -/
theorem c9_counterexample :
    tableSlots st9ex = [1] ∧
    free_descriptor st9ex.mem.heap 1 = [2, 3, 4, 5, 6, 9, 7, 8, 10, 1] ∧
    lookupHeap st9ex.mem.heap 1 = some (.cdesc (builtC plugOne 1)) ∧
    (builtC plugOne 1).implementation_data = 10 ∧
    (free_descriptor st9ex.mem.heap 1).getLast? = some 1 ∧
    (10 : Nat) ≠ 1 := by
  refine ⟨by decide, by decide, by decide, by decide, by decide, by decide⟩

instance {ε α : Type} [DecidableEq ε] [DecidableEq α] : DecidableEq (Except ε α) :=
  fun a b =>
    match a, b with
    | .error e1, .error e2 =>
      if h : e1 = e2 then isTrue (by rw [h])
      else isFalse (fun hc => h (Except.error.inj hc))
    | .error _, .ok _ => isFalse (fun hc => Except.noConfusion hc)
    | .ok _, .error _ => isFalse (fun hc => Except.noConfusion hc)
    | .ok a1, .ok a2 =>
      if h : a1 = a2 then isTrue (by rw [h])
      else isFalse (fun hc => h (Except.ok.inj hc))

/-! ### Witness fixtures -/

/-- The registry state right after lazy initialization of a fresh process. -/
def stA : RegState := afterInit initState

/-- The state after the first registration from catConst. -/
def stW1 : RegState := retSt (ladspa_descriptor catConst 0 stA)

/-- The state after two further calls with fresh indices. -/
def stW2 : RegState := stOf (runCalls catConst [1, 2] stW1)

/-- An audio input port declaration. -/
def portIn : Port := ⟨[73], .AudioInput, none, none, none, none⟩

/-- An audio output port declaration. -/
def portOut : Port := ⟨[79], .AudioOutput, none, none, none, none⟩

/-- A control input port declaration. -/
def portCtl : Port := ⟨[67], .ControlInput, none, none, none, none⟩

/-- A plugin description with one audio input and one audio output. -/
def plugAud : PluginDescriptor := ⟨11, [80], 1, [81], [82], [83], [portIn, portOut]⟩

/-- A catalog holding only the two-port plugin. -/
def catAud : Nat → Option PluginDescriptor := fun _ => some plugAud

/-- A plugin description with a single control input port. -/
def plugCtl : PluginDescriptor := ⟨12, [80], 0, [81], [82], [83], [portCtl]⟩

/-- The two-port handle connected out of order. -/
def h0W : Handle := hOf (connectAll (instantiate plugAud) [(1, 200), (0, 100)])

/-- The two-port handle connected in order, then with port 0 reconnected. -/
def hA : Handle := hOf (connectAll (instantiate plugAud) [(0, 100), (1, 200)])

/-- The handle after reconnecting port 0 of hA to a new location. -/
def hB : Handle := hOf (connect_port hA 0 300)

/-- The control handle with its single port connected. -/
def hC : Handle := hOf (connect_port (instantiate plugCtl) 0 42)

/-! ### Witnesses -/

theorem c1_cached_pointer_stable_witness :
    ladspa_descriptor catConst 0 stW2 = .ok (some 1, stW2) :=
  @c1_cached_pointer_stable catConst 0 stA 1 stW1 [1, 2] stW2
    (by decide) (by decide) (by decide) (by decide)

theorem c2_run_rederives_views_witness :
    (run h0W 128).2.2.get? 0 = some ⟨portIn, .AudioInput 100 128⟩ ∧
    (run (run h0W 128).1 64).2.2.get? 0 = some ⟨portIn, .AudioInput 100 64⟩ :=
  ((@c2_run_rederives_views plugAud [(1, 200), (0, 100)] h0W 128 64
    (by decide) (by decide) (by decide)).2.2.2.2 (0, 100) (by decide) portIn
      (by decide)).1 rfl

theorem c3_ordered_port_list_witness :
    ∃ h2, connectAll (instantiate plugAud) [(1, 200), (0, 100)] = .ok h2 ∧
      h2.ports = List.range plugAud.ports.length ∧
      h2.ports.length = plugAud.ports.length ∧
      (∀ i, i < plugAud.ports.length →
        ∃ c, vmLookup h2.port_map i = some c ∧ (portsView h2).get? i = some c) :=
  (@c3_ordered_port_list plugAud [(1, 200), (0, 100)] (by decide) (by decide)).1

theorem c4_connect_frame_witness :
    vmLookup hB.port_map 1 = vmLookup hA.port_map 1 :=
  (@c4_connect_frame hA 0 300 ⟨portIn, .AudioInput 100 0⟩ hB
    (by decide) (by decide)).2 1 (by decide)

theorem c5_connect_typed_views_witness :
    vmLookup hC.port_map 0 = some ⟨portCtl, .ControlInput 42⟩ :=
  (@c5_connect_typed_views (instantiate plugCtl) 0 42 portCtl hC
    (by decide) (by decide)).2.2.1 rfl

theorem c6_descriptor_roundtrip_witness :
    ∃ dp st1, ladspa_descriptor catAud 0 stA = .ok (some dp, st1) ∧
      ∃ c, lookupHeap st1.mem.heap dp = some (.cdesc c) ∧
        c.unique_id = plugAud.unique_id ∧
        c.properties = plugAud.properties ∧
        c.port_count = plugAud.ports.length ∧
        lookupHeap st1.mem.heap c.label = some (.bytes (plugAud.label ++ [0])) ∧
        lookupHeap st1.mem.heap c.name = some (.bytes (plugAud.name ++ [0])) ∧
        lookupHeap st1.mem.heap c.maker = some (.bytes (plugAud.maker ++ [0])) ∧
        lookupHeap st1.mem.heap c.copyright = some (.bytes (plugAud.copyright ++ [0])) ∧
        lookupHeap st1.mem.heap c.port_descriptors =
          some (.pdescs (plugAud.ports.map (fun p => p.desc.bits))) ∧
        ∃ nameIds, lookupHeap st1.mem.heap c.port_names = some (.pnames nameIds) ∧
          nameIds.length = plugAud.ports.length ∧
          ∀ i, i < plugAud.ports.length →
            lookupHeap st1.mem.heap (nameIds.getD i 0) =
              some (.bytes ((plugAud.ports.getD i
                ⟨[], .Invalid, none, none, none, none⟩).name ++ [0])) :=
  @c6_descriptor_roundtrip catAud 0 stA plugAud (by decide) (by decide) rfl (by decide)

theorem c7_capacity_abort_witness :
    ∃ dp st1, ladspa_descriptor catConst 0 stA = .ok (some dp, st1) ∧
      st1.num_descriptors = stA.num_descriptors + 1 ∧
      tableSlots st1 = tableSlots stA ++ [dp] :=
  (c7_capacity_abort (by decide) (by decide) rfl).1 (by decide)

theorem c8_exhausted_null_witness :
    ladspa_descriptor catNone 0 stA = .ok (none, afterInit stA) :=
  (c8_exhausted_null (by decide) rfl).1

theorem c9_teardown_exact_witness :
    (global_destruct st9ex).Perm (List.range st9ex.mem.next) :=
  (c9_teardown_exact (by decide)).1

theorem c10_slot_vs_index_witness :
    ∃ st1, ladspa_descriptor catUid 5 stA = .ok (some stA.mem.next, st1) ∧
      tableSlots st1 = tableSlots stA ++ [stA.mem.next] ∧
      st1.num_descriptors = stA.num_descriptors + 1 ∧
      (tableSlots st1).getD stA.num_descriptors 0 = stA.mem.next :=
  (c10_slot_vs_index (by decide) (by decide) rfl (by decide)).1

end LadspaRs
